import Mathlib

/-!
# Verification of the ai-newsy selection and scheduling core

Shallow embedding of the decision logic of the ai-newsy repository:

* `execution/database.py` — `get_unsent_articles_for_digest` (grouping,
  per-source capping, round-robin interleaving), `get_unsent_articles`,
  `get_unsent_articles_with_topic_set`, `get_topics_used_in_last_k_days`,
  `mark_articles_sent`, `insert_digest_log`;
* `execution/feed_config.py` — `_normalize_for_match`, `_is_same_source`,
  `build_merged_feeds`;
* `execution/send_daily_email.py` — `choose_topic_for_today`,
  `send_daily_digest`;
* `execution/assign_topics.py` — `assign_topic_for_article`, `assign_all`;
* `execution/summarize_articles.py` — `summarize_selected` (the part of its
  behaviour that touches the store).

Conventions of the embedding:

* Python dict records become structures; a field that may be missing or
  `None` becomes an `Option`.
* Timestamps are ISO-8601 UTC strings exactly as the Python code stores
  them; the code compares them as strings (`sorted` keys, the store's
  `gte` filter), which we mirror with lexicographic `String` order.
* External calls (the classifier, the summarizer, SendGrid) are modelled
  as oracle parameters: the pure function receives the outcome the
  external world would have produced.
* Python's `sorted`/`list.sort` are stable; we embed them as a stable
  insertion sort with the same comparator.
-/

/-! ## Data model -/

/-- A row of the `articles` table, restricted to the fields the selection
and scheduling logic reads.  `Option` marks columns that may be NULL /
keys that may be absent from the dict. -/
structure Article where
  id : Nat
  url : String := ""
  title : String := ""
  source : Option String := none
  content : Option String := none
  summary : Option String := none
  opinion : Option String := none
  image_url : Option String := none
  topic : Option String := none
  fetched_at : Option String := none
  sent_at : Option String := none
  deriving DecidableEq, Repr

/-- A row of the `digests` table (`insert_digest_log` writes `topic` and
`sent_at`). -/
structure DigestEntry where
  topic : String
  sent_at : String
  deriving DecidableEq, Repr

/-- `a.get("source", "Unknown")` — the grouping key used by
`get_unsent_articles_for_digest`.  `none` models a record without the
"source" key, which the two-argument `.get` replaces by "Unknown". -/
def srcKey (a : Article) : String := a.source.getD "Unknown"

/-- `x.get("fetched_at") or ""` — the sort key used by
`get_unsent_articles_for_digest` (Python `or` turns both a missing key and
an empty string into `""`). -/
def fetchKey (a : Article) : String := a.fetched_at.getD ""

/-! ## Python string comparison

Python compares strings lexicographically by Unicode code point.  We
embed that order directly (Lean's built-in `String.lt` is semantically
the same order, but its decision procedure is not kernel-reducible, so we
spell the comparison out). -/

/-- Lexicographic code-point comparison of character lists — Python's
`<` on strings. -/
def pyLt : List Char → List Char → Bool
  | [], [] => false
  | [], _ :: _ => true
  | _ :: _, [] => false
  | c :: cs, d :: ds =>
      if c.toNat < d.toNat then true
      else if d.toNat < c.toNat then false
      else pyLt cs ds

/-- Python `a < b` on strings. -/
def strLt (a b : String) : Bool := pyLt a.data b.data

theorem pyLt_asymm : ∀ a b : List Char, pyLt a b = true → pyLt b a = false := by
  intro a
  induction a with
  | nil => intro b h; cases b <;> simp [pyLt]
  | cons c cs ih =>
      intro b h
      cases b with
      | nil => simp [pyLt] at h
      | cons d ds =>
          simp only [pyLt] at h ⊢
          by_cases h1 : c.toNat < d.toNat
          · have h2 : ¬ d.toNat < c.toNat := by omega
            simp [h1, h2]
          · by_cases h2 : d.toNat < c.toNat
            · simp [h1, h2] at h
            · simp only [if_neg h1, if_neg h2] at h
              simp only [if_neg h1, if_neg h2]
              exact ih ds h

theorem pyLt_false_trans : ∀ a b c : List Char,
    pyLt a b = false → pyLt b c = false → pyLt a c = false := by
  intro a
  induction a with
  | nil =>
      intro b c h1 h2
      cases b with
      | nil => cases c with
        | nil => rfl
        | cons z zs => simp [pyLt] at h2
      | cons y ys => simp [pyLt] at h1
  | cons x xs ih =>
      intro b c h1 h2
      cases c with
      | nil => cases xs <;> rfl
      | cons z zs =>
          cases b with
          | nil => simp [pyLt] at h2
          | cons y ys =>
              simp only [pyLt] at h1 h2 ⊢
              by_cases hxy : x.toNat < y.toNat
              · rw [if_pos hxy] at h1; simp at h1
              · by_cases hyz : y.toNat < z.toNat
                · rw [if_pos hyz] at h2; simp at h2
                · rw [if_neg hxy] at h1
                  rw [if_neg hyz] at h2
                  rw [if_neg (by omega : ¬ x.toNat < z.toNat)]
                  by_cases hzx : z.toNat < x.toNat
                  · rw [if_pos hzx]
                  · rw [if_neg hzx]
                    have hyx : ¬ y.toNat < x.toNat := by omega
                    have hzy : ¬ z.toNat < y.toNat := by omega
                    rw [if_neg hyx] at h1
                    rw [if_neg hzy] at h2
                    exact ih ys zs h1 h2

theorem strLt_asymm {a b : String} (h : strLt a b = true) : strLt b a = false :=
  pyLt_asymm a.data b.data h

theorem strLt_false_trans {a b c : String} (h1 : strLt a b = false)
    (h2 : strLt b c = false) : strLt a c = false :=
  pyLt_false_trans a.data b.data c.data h1 h2

/-! ## Stable sorting (Python `sorted` / `list.sort`)

`sorted(xs, key=k, reverse=True)` is a stable descending sort: elements
with equal keys keep their original relative order.  An insertion sort
that moves an element past exactly those elements whose key is strictly
smaller realises the same function. -/

/-- Insert `x` (the earlier element) into the already-sorted tail of a
descending sort: it moves past exactly the elements with strictly greater
key, so equal keys keep their original relative order. -/
def insDesc (key : α → String) (x : α) : List α → List α
  | [] => [x]
  | y :: ys => if strLt (key x) (key y) then y :: insDesc key x ys else x :: y :: ys

/-- Stable descending sort by a string key: `sorted(xs, key, reverse=True)`. -/
def sortDescBy (key : α → String) : List α → List α
  | [] => []
  | x :: l => insDesc key x (sortDescBy key l)

/-- Insert `x` into an ascending-sorted list (stable). -/
def insAsc (key : α → String) (x : α) : List α → List α
  | [] => [x]
  | y :: ys => if strLt (key y) (key x) then y :: insAsc key x ys else x :: y :: ys

/-- Stable ascending sort by a string key: `sorted(xs, key)`. -/
def sortAscBy (key : α → String) : List α → List α
  | [] => []
  | x :: l => insAsc key x (sortAscBy key l)

/-! ## Grouping (`collections.defaultdict` with insertion order) -/

/-- Append `a` to the group keyed `k`, creating the group at the end if it
does not exist yet — exactly what `by_source[key].append(a)` does on a
`defaultdict(list)` (dict keys keep insertion order). -/
def addToGroup (k : String) (a : α) : List (String × List α) → List (String × List α)
  | [] => [(k, [a])]
  | (k', g) :: rest =>
      if k' = k then (k', g ++ [a]) :: rest else (k', g) :: addToGroup k a rest

/-- `by_source` of `get_unsent_articles_for_digest`: group the pool by
`a.get("source", "Unknown")`, keys in first-occurrence order, each group
in pool order. -/
def groupBySource (pool : List Article) : List (String × List Article) :=
  pool.foldl (fun acc a => addToGroup (srcKey a) a acc) []

/-- The `capped` dict: per source, sort newest first by `fetched_at` and
keep the first `max_per_source`. -/
def cappedGroups (pool : List Article) (maxPerSource : Nat) :
    List (String × List Article) :=
  (groupBySource pool).map fun kg => (kg.1, (sortDescBy fetchKey kg.2).take maxPerSource)

/-! ## Round-robin interleaving (the `while True` loop) -/

theorem sum_map_tail_le (gs : List (List α)) :
    ((gs.map List.tail).map List.length).sum ≤ (gs.map List.length).sum := by
  induction gs with
  | nil => simp
  | cons g gs ih =>
      simp only [List.map_cons, List.sum_cons]
      have : g.tail.length ≤ g.length := by cases g <;> simp
      omega

theorem sum_map_tail_lt (gs : List (List α)) (h : ¬ (gs.all List.isEmpty = true)) :
    ((gs.map List.tail).map List.length).sum < (gs.map List.length).sum := by
  induction gs with
  | nil => simp at h
  | cons g gs ih =>
      simp only [List.map_cons, List.sum_cons]
      cases g with
      | nil =>
          simp only [List.all_cons, List.isEmpty_nil, Bool.true_and] at h
          simpa using ih h
      | cons a t =>
          have h1 : ((gs.map List.tail).map List.length).sum ≤ (gs.map List.length).sum :=
            sum_map_tail_le gs
          simp only [List.tail_cons, List.length_cons]
          omega

/-- The body of the `while True` loop with an explicit iteration bound
(the loop terminates because every pass that adds something strictly
shrinks the total number of remaining items, so `total + 1` passes always
suffice). -/
def roundRobinFuel : Nat → List (List Article) → List Article
  | 0, _ => []
  | fuel + 1, gs =>
      if gs.all List.isEmpty then []
      else (gs.filterMap List.head?) ++ roundRobinFuel fuel (gs.map List.tail)

/-- The round-robin interleaving of `get_unsent_articles_for_digest`: one
pass of the while loop takes the current head of every group that still
has one (in list order) and advances those groups; the loop stops when a
pass adds nothing. -/
def roundRobin (gs : List (List Article)) : List Article :=
  roundRobinFuel ((gs.map List.length).sum + 1) gs

theorem roundRobinFuel_congr (n : Nat) : ∀ gs : List (List Article), ∀ fuel : Nat,
    (gs.map List.length).sum = n → n < fuel →
    roundRobinFuel fuel gs = roundRobinFuel (n + 1) gs := by
  induction n using Nat.strong_induction_on with
  | _ n ih =>
      intro gs fuel hsum hfuel
      cases fuel with
      | zero => omega
      | succ fuel =>
        simp only [roundRobinFuel]
        split
        · rfl
        · rename_i hne
          congr 1
          have hlt : ((gs.map List.tail).map List.length).sum < n := by
            rw [← hsum]; exact sum_map_tail_lt gs hne
          rw [ih _ hlt (gs.map List.tail) fuel rfl (by omega),
              ih _ hlt (gs.map List.tail) n rfl hlt]

/-- Unfolding equation for `roundRobin`: exactly one pass of the while
loop followed by the loop on the advanced groups. -/
theorem roundRobin_eq (gs : List (List Article)) :
    roundRobin gs =
      if gs.all List.isEmpty then []
      else (gs.filterMap List.head?) ++ roundRobin (gs.map List.tail) := by
  show roundRobinFuel _ gs = _
  simp only [roundRobinFuel]
  split
  · rfl
  · rename_i hne
    congr 1
    have hlt : ((gs.map List.tail).map List.length).sum < (gs.map List.length).sum :=
      sum_map_tail_lt gs hne
    exact roundRobinFuel_congr _ (gs.map List.tail) _ rfl hlt

/-- `get_unsent_articles_for_digest`, lines 180–214 of
`execution/database.py`: the grouping / capping / ordering applied to the
already-fetched pool.  `sorted(capped.keys())` followed by indexing the
dict is realised as sorting the (distinct-keyed) pairs by key. -/
def digest_select (pool : List Article) (maxPerSource : Nat) (interleave : Bool) :
    List Article :=
  let capped := cappedGroups pool maxPerSource
  if !interleave then
    sortDescBy fetchKey (capped.map Prod.snd).flatten
  else
    roundRobin ((sortAscBy Prod.fst capped).map Prod.snd)

/-! ## Basic facts about the stable sorts -/

theorem insDesc_perm (key : α → String) (x : α) (l : List α) :
    List.Perm (insDesc key x l) (x :: l) := by
  induction l with
  | nil => simp [insDesc]
  | cons y ys ih =>
      simp only [insDesc]
      split
      · exact List.Perm.trans (ih.cons y) (List.Perm.swap x y ys)
      · exact List.Perm.refl _

theorem sortDescBy_perm (key : α → String) (l : List α) :
    List.Perm (sortDescBy key l) l := by
  induction l with
  | nil => simp [sortDescBy]
  | cons x l ih =>
      simp only [sortDescBy]
      exact (insDesc_perm key x (sortDescBy key l)).trans (ih.cons x)

theorem insAsc_perm (key : α → String) (x : α) (l : List α) :
    List.Perm (insAsc key x l) (x :: l) := by
  induction l with
  | nil => simp [insAsc]
  | cons y ys ih =>
      simp only [insAsc]
      split
      · exact List.Perm.trans (ih.cons y) (List.Perm.swap x y ys)
      · exact List.Perm.refl _

theorem sortAscBy_perm (key : α → String) (l : List α) :
    List.Perm (sortAscBy key l) l := by
  induction l with
  | nil => simp [sortAscBy]
  | cons x l ih =>
      simp only [sortAscBy]
      exact (insAsc_perm key x (sortAscBy key l)).trans (ih.cons x)

/-- Elements of the descending sort are exactly the original elements. -/
theorem mem_sortDescBy (key : α → String) {x : α} {l : List α} :
    x ∈ sortDescBy key l ↔ x ∈ l :=
  (sortDescBy_perm key l).mem_iff

theorem insDesc_sorted (key : α → String) (x : α) (l : List α)
    (h : l.Pairwise fun a b => strLt (key a) (key b) = false) :
    (insDesc key x l).Pairwise fun a b => strLt (key a) (key b) = false := by
  induction l with
  | nil => simp [insDesc]
  | cons y ys ih =>
      simp only [insDesc]
      rcases List.pairwise_cons.mp h with ⟨hy, hys⟩
      split
      · rename_i hxy
        refine List.pairwise_cons.mpr ⟨?_, ih hys⟩
        intro b hb
        have := (insDesc_perm key x ys).mem_iff.mp hb
        rcases List.mem_cons.mp this with rfl | hb'
        · exact strLt_asymm hxy
        · exact hy b hb'
      · rename_i hxy
        rw [Bool.not_eq_true] at hxy
        refine List.pairwise_cons.mpr ⟨?_, h⟩
        intro b hb
        rcases List.mem_cons.mp hb with rfl | hb'
        · exact hxy
        · exact strLt_false_trans hxy (hy b hb')

/-- A Python descending sort is pairwise non-ascending in the key. -/
theorem sortDescBy_sorted (key : α → String) (l : List α) :
    (sortDescBy key l).Pairwise fun a b => strLt (key a) (key b) = false := by
  induction l with
  | nil => simp [sortDescBy]
  | cons x l ih =>
      simpa [sortDescBy] using insDesc_sorted key x (sortDescBy key l) ih

/-! ## Round-robin is a permutation of the concatenated groups -/

theorem perm_flatten_of_perm {l₁ l₂ : List (List α)} (h : List.Perm l₁ l₂) :
    List.Perm l₁.flatten l₂.flatten := by
  induction h with
  | nil => simp
  | cons x _ ih => simpa only [List.flatten_cons] using ih.append_left x
  | swap x y l =>
      simp only [List.flatten_cons]
      rw [← List.append_assoc, ← List.append_assoc]
      exact (List.perm_append_comm).append_right l.flatten
  | trans _ _ ih₁ ih₂ => exact ih₁.trans ih₂

/-- Splitting a concatenation into the heads of the groups plus the
concatenation of the tails is a permutation. -/
theorem flatten_perm_heads_tails (gs : List (List α)) :
    List.Perm gs.flatten ((gs.filterMap List.head?) ++ (gs.map List.tail).flatten) := by
  induction gs with
  | nil => simp
  | cons g gs ih =>
      cases g with
      | nil => simpa using ih
      | cons a t =>
          simp only [List.flatten_cons, List.filterMap_cons, List.head?_cons,
            List.map_cons, List.tail_cons, List.cons_append]
          refine List.Perm.cons a ?_
          have h1 : List.Perm (t ++ gs.flatten)
              (t ++ ((gs.filterMap List.head?) ++ (gs.map List.tail).flatten)) :=
            ih.append_left t
          have h2 : List.Perm
              (t ++ ((gs.filterMap List.head?) ++ (gs.map List.tail).flatten))
              ((gs.filterMap List.head?) ++ (t ++ (gs.map List.tail).flatten)) := by
            rw [← List.append_assoc, ← List.append_assoc]
            exact (List.perm_append_comm).append_right _
          exact h1.trans h2

theorem roundRobin_perm (gs : List (List Article)) :
    List.Perm (roundRobin gs) gs.flatten := by
  generalize hn : (gs.map List.length).sum = n
  induction n using Nat.strong_induction_on generalizing gs with
  | _ n ih =>
      rw [roundRobin_eq]
      split
      · rename_i h
        have : gs.flatten = [] := by
          rw [List.flatten_eq_nil_iff]
          intro l hl
          have := List.all_eq_true.mp h l hl
          simpa using this
        simp [this]
      · rename_i h
        have hlt : ((gs.map List.tail).map List.length).sum < n := by
          rw [← hn]; exact sum_map_tail_lt gs h
        have hrec := ih _ hlt (gs.map List.tail) rfl
        exact (hrec.append_left _).trans (flatten_perm_heads_tails gs).symm

/-! ## Invariants of the grouping -/

/-- Every member of a group carries that group's key. -/
def GroupsHomog (gs : List (String × List Article)) : Prop :=
  ∀ kg ∈ gs, ∀ a ∈ kg.2, srcKey a = kg.1

theorem addToGroup_homog {k : String} {a : Article} {acc : List (String × List Article)}
    (hk : srcKey a = k) (h : GroupsHomog acc) : GroupsHomog (addToGroup k a acc) := by
  induction acc with
  | nil =>
      intro kg hkg b hb
      simp only [addToGroup, List.mem_singleton] at hkg
      subst hkg
      simp only [List.mem_singleton] at hb
      subst hb
      exact hk
  | cons p acc ih =>
      obtain ⟨k', g⟩ := p
      simp only [addToGroup]
      split
      · rename_i hkk
        subst hkk
        intro kg hkg b hb
        rcases List.mem_cons.mp hkg with rfl | htl
        · rcases List.mem_append.mp hb with hb | hb
          · exact h (k', g) (List.mem_cons_self _ _) b hb
          · simp only [List.mem_singleton] at hb
            subst hb
            exact hk
        · exact h kg (List.mem_cons_of_mem _ htl) b hb
      · intro kg hkg b hb
        rcases List.mem_cons.mp hkg with rfl | htl
        · exact h (k', g) (List.mem_cons_self _ _) b hb
        · exact ih (fun p hp => h p (List.mem_cons_of_mem _ hp)) kg htl b hb

theorem addToGroup_keys (k : String) (a : Article) (acc : List (String × List Article)) :
    (addToGroup k a acc).map Prod.fst =
      if k ∈ acc.map Prod.fst then acc.map Prod.fst else acc.map Prod.fst ++ [k] := by
  induction acc with
  | nil => simp [addToGroup]
  | cons p acc ih =>
      obtain ⟨k', g⟩ := p
      simp only [addToGroup]
      split
      · rename_i hkk
        subst hkk
        simp
      · rename_i hkk
        have hne : ¬ (k = k') := fun hc => hkk hc.symm
        simp only [List.map_cons, ih, List.mem_cons]
        by_cases hmem : k ∈ acc.map Prod.fst
        · simp [hmem, hne]
        · simp [hmem, hne]

theorem groupBySource_aux (pool : List Article) :
    ∀ acc : List (String × List Article), GroupsHomog acc → (acc.map Prod.fst).Nodup →
    GroupsHomog (pool.foldl (fun acc a => addToGroup (srcKey a) a acc) acc) ∧
    ((pool.foldl (fun acc a => addToGroup (srcKey a) a acc) acc).map Prod.fst).Nodup := by
  induction pool with
  | nil => intro acc h1 h2; exact ⟨h1, h2⟩
  | cons a pool ih =>
      intro acc h1 h2
      simp only [List.foldl_cons]
      refine ih _ (addToGroup_homog rfl h1) ?_
      rw [addToGroup_keys]
      split
      · exact h2
      · rename_i hmem
        rw [List.nodup_append]
        refine ⟨h2, List.nodup_singleton _, ?_⟩
        intro x hx hx'
        simp only [List.mem_singleton] at hx'
        subst hx'
        exact hmem hx

theorem groupBySource_homog (pool : List Article) : GroupsHomog (groupBySource pool) :=
  (groupBySource_aux pool [] (by intro kg h; simp at h) (by simp)).1

theorem groupBySource_keys_nodup (pool : List Article) :
    ((groupBySource pool).map Prod.fst).Nodup :=
  (groupBySource_aux pool [] (by intro kg h; simp at h) (by simp)).2

theorem cappedGroups_homog (pool : List Article) (cap : Nat) :
    GroupsHomog (cappedGroups pool cap) := by
  intro kg hkg a ha
  simp only [cappedGroups, List.mem_map] at hkg
  obtain ⟨⟨k', g⟩, hmem, hkg'⟩ := hkg
  subst hkg'
  simp only at ha
  have ha' : a ∈ sortDescBy fetchKey g := List.mem_of_mem_take ha
  have ha'' : a ∈ g := (mem_sortDescBy fetchKey).mp ha'
  exact groupBySource_homog pool (k', g) hmem a ha''

theorem cappedGroups_keys_nodup (pool : List Article) (cap : Nat) :
    ((cappedGroups pool cap).map Prod.fst).Nodup := by
  have : (cappedGroups pool cap).map Prod.fst = (groupBySource pool).map Prod.fst := by
    simp [cappedGroups, List.map_map, Function.comp]
  rw [this]
  exact groupBySource_keys_nodup pool

theorem cappedGroups_len (pool : List Article) (cap : Nat) :
    ∀ kg ∈ cappedGroups pool cap, kg.2.length ≤ cap := by
  intro kg hkg
  simp only [cappedGroups, List.mem_map] at hkg
  obtain ⟨⟨k', g⟩, _, hkg'⟩ := hkg
  subst hkg'
  simpa using List.length_take_le cap _

/-- The per-source count of a concatenation of key-homogeneous,
distinct-key groups is bounded by the longest group length bound. -/
theorem countP_flatten_groups_le (s : String) (cap : Nat) :
    ∀ gs : List (String × List Article), GroupsHomog gs →
    ((gs.map Prod.fst).Nodup) → (∀ kg ∈ gs, kg.2.length ≤ cap) →
    ((gs.map Prod.snd).flatten.countP (fun a => decide (srcKey a = s))) ≤ cap := by
  intro gs
  induction gs with
  | nil => intro _ _ _; simp
  | cons p gs ih =>
      intro hh hnd hlen
      obtain ⟨k, g⟩ := p
      rw [List.map_cons] at hnd
      have hnd' := List.nodup_cons.mp hnd
      simp only [List.map_cons, List.flatten_cons, List.countP_append]
      by_cases hk : k = s
      · subst hk
        have hrest : ((gs.map Prod.snd).flatten.countP (fun a => decide (srcKey a = k))) = 0 := by
          rw [List.countP_eq_zero]
          intro a ha
          simp only [List.mem_flatten, List.mem_map] at ha
          obtain ⟨l, ⟨⟨k', g'⟩, hmem, hl⟩, hal⟩ := ha
          subst hl
          have : srcKey a = k' := hh (k', g') (List.mem_cons_of_mem _ hmem) a hal
          have hk' : k' ≠ k := by
            intro hc
            exact hnd'.1 (hc ▸ (List.mem_map.mpr ⟨(k', g'), hmem, rfl⟩))
          simp [this, hk']
        have hg : (g.countP (fun a => decide (srcKey a = k))) ≤ g.length :=
          List.countP_le_length _
        have hgl : g.length ≤ cap := by simpa using hlen (k, g) (List.mem_cons_self _ _)
        omega
      · have hg : (g.countP (fun a => decide (srcKey a = s))) = 0 := by
          rw [List.countP_eq_zero]
          intro a ha
          have : srcKey a = k := hh (k, g) (List.mem_cons_self _ _) a ha
          simp [this, hk]
        rw [hg]
        simpa using ih (fun kg hkg => hh kg (List.mem_cons_of_mem _ hkg))
          hnd'.2
          (fun kg hkg => hlen kg (List.mem_cons_of_mem _ hkg))

/-- Both interleave modes return a permutation of the flattened capped
groups. -/
theorem digest_select_perm (pool : List Article) (cap : Nat) (il : Bool) :
    List.Perm (digest_select pool cap il) (((cappedGroups pool cap).map Prod.snd).flatten) := by
  cases il with
  | false =>
      simpa [digest_select] using
        sortDescBy_perm fetchKey (((cappedGroups pool cap).map Prod.snd).flatten)
  | true =>
      simp only [digest_select, Bool.not_true, Bool.false_eq_true, if_false, if_neg]
      have h1 := roundRobin_perm ((sortAscBy Prod.fst (cappedGroups pool cap)).map Prod.snd)
      have h2 : List.Perm ((sortAscBy Prod.fst (cappedGroups pool cap)).map Prod.snd)
          ((cappedGroups pool cap).map Prod.snd) :=
        (sortAscBy_perm Prod.fst (cappedGroups pool cap)).map Prod.snd
      exact h1.trans (perm_flatten_of_perm h2)

/-! ## Example pool: three articles from source "A", one from source "B"
(used by the spec's worked examples). -/

def artA1 : Article := { id := 1, source := some "A", fetched_at := some "2026-10-12T03:00:00" }
def artA2 : Article := { id := 2, source := some "A", fetched_at := some "2026-10-12T02:00:00" }
def artA3 : Article := { id := 3, source := some "A", fetched_at := some "2026-10-12T01:00:00" }
def artB1 : Article := { id := 4, source := some "B", fetched_at := some "2026-10-12T02:30:00" }
def poolAB : List Article := [artA1, artA2, artA3, artB1]

example : digest_select poolAB 3 true = [artA1, artB1, artA2, artA3] := by decide
example : digest_select poolAB 3 false = [artA1, artB1, artA2, artA3] := by decide

/-- **C1**: for every pool and every `max_per_source ≥ 1`, the selection
of `get_unsent_articles_for_digest` returns, in both interleave modes, at
most `max_per_source` articles per source key (`a.get("source",
"Unknown")` puts records without a source into the single "Unknown"
bucket, which `srcKey` mirrors), and an empty pool yields an empty list
in both modes. -/
theorem C1_per_source_cap (pool : List Article) (cap : Nat) (hcap : 1 ≤ cap) :
    (∀ s : String,
      ((digest_select pool cap true).countP (fun a => decide (srcKey a = s))) ≤ cap ∧
      ((digest_select pool cap false).countP (fun a => decide (srcKey a = s))) ≤ cap) ∧
    digest_select [] cap true = [] ∧ digest_select [] cap false = [] := by
  refine ⟨?_, rfl, rfl⟩
  intro s
  have hbound := countP_flatten_groups_le s cap (cappedGroups pool cap)
    (cappedGroups_homog pool cap) (cappedGroups_keys_nodup pool cap)
    (cappedGroups_len pool cap)
  constructor
  · rw [List.Perm.countP_eq _ (digest_select_perm pool cap true)]
    exact hbound
  · rw [List.Perm.countP_eq _ (digest_select_perm pool cap false)]
    exact hbound

/-- Witness for C1 at a concrete pool and cap. -/
theorem C1_per_source_cap_witness :
    1 ≤ 2 ∧
    ((digest_select poolAB 2 true).countP (fun a => decide (srcKey a = "A"))) ≤ 2 :=
  ⟨by decide, ((C1_per_source_cap poolAB 2 (by decide)).1 "A").1⟩

/-- **C8**: with `interleave=false` the selection is exactly the
per-source-capped items, flattened and stably sorted descending by
`fetched_at` (Python string comparison): the output is pairwise
non-ascending in `fetched_at`, it is a permutation of the flattened
capped groups, and on the worked pool of three "A" articles and one "B"
article with cap 3 it is the four items in descending `fetched_at`
order. -/
theorem C8_noninterleave_sorted (pool : List Article) (cap : Nat) :
    ((digest_select pool cap false).Pairwise
      fun a b => strLt (fetchKey a) (fetchKey b) = false) ∧
    List.Perm (digest_select pool cap false)
      (((cappedGroups pool cap).map Prod.snd).flatten) ∧
    digest_select poolAB 3 false = [artA1, artB1, artA2, artA3] := by
  refine ⟨?_, digest_select_perm pool cap false, by decide⟩
  simpa [digest_select] using
    sortDescBy_sorted fetchKey (((cappedGroups pool cap).map Prod.snd).flatten)

/-- **C9**: the digest selection is a pure, deterministic function of the
pool and its parameters — two evaluations on equal pools with equal
parameters return identical lists.  (Purity with respect to the pool
holds by construction of the embedding: the Python code builds new lists
— `sorted`, slicing, `extend` — and never mutates the pool's elements.) -/
theorem C9_select_deterministic (pool₁ pool₂ : List Article) (cap : Nat) (il : Bool)
    (h : pool₁ = pool₂) :
    digest_select pool₁ cap il = digest_select pool₂ cap il := by
  rw [h]

/-- Witness for C9 at a concrete pool. -/
theorem C9_select_deterministic_witness :
    digest_select poolAB 2 true = digest_select poolAB 2 true :=
  C9_select_deterministic poolAB poolAB 2 true rfl

/-! ## The rounds formulation of interleaving (C4) -/

/-- Length of the longest group. -/
def maxLen (gs : List (List Article)) : Nat := (gs.map List.length).foldr max 0

/-- The spec's description of interleaving: round `i` takes the `i`-th
item (0-indexed) from every group that still has one, visiting groups in
list order, for rounds `0 ≤ i < maxLen`. -/
def roundsSpec (gs : List (List Article)) : List Article :=
  (List.range (maxLen gs)).flatMap fun i => gs.filterMap fun g => g[i]?

theorem maxLen_eq_zero_of_all_empty (gs : List (List Article))
    (h : gs.all List.isEmpty = true) : maxLen gs = 0 := by
  induction gs with
  | nil => rfl
  | cons g gs ih =>
      simp only [List.all_cons, Bool.and_eq_true] at h
      have hg : g = [] := by simpa [List.isEmpty_iff] using h.1
      subst hg
      simp only [maxLen, List.map_cons, List.foldr_cons, List.length_nil]
      rw [Nat.zero_max]
      exact ih h.2

theorem maxLen_map_tail (gs : List (List Article)) :
    maxLen (gs.map List.tail) = maxLen gs - 1 := by
  induction gs with
  | nil => rfl
  | cons g gs ih =>
      simp only [maxLen, List.map_cons, List.foldr_cons] at ih ⊢
      rw [ih]
      have : g.tail.length = g.length - 1 := List.length_tail g
      rw [this]
      omega

theorem maxLen_pos (gs : List (List Article)) (h : ¬ (gs.all List.isEmpty = true)) :
    1 ≤ maxLen gs := by
  induction gs with
  | nil => simp at h
  | cons g gs ih =>
      simp only [List.all_cons, Bool.and_eq_true, not_and_or] at h
      simp only [maxLen, List.map_cons, List.foldr_cons]
      rcases h with h | h
      · have : g ≠ [] := by simpa [List.isEmpty_iff] using h
        have : 1 ≤ g.length := List.length_pos.mpr this
        omega
      · have := ih h
        simp only [maxLen] at this
        omega

theorem getElem?_tail_succ (g : List Article) (i : Nat) : g.tail[i]? = g[i + 1]? := by
  cases g <;> simp

/-- The while-loop interleaving equals the rounds formulation. -/
theorem roundRobin_eq_roundsSpec (gs : List (List Article)) :
    roundRobin gs = roundsSpec gs := by
  generalize hn : (gs.map List.length).sum = n
  induction n using Nat.strong_induction_on generalizing gs with
  | _ n ih =>
      rw [roundRobin_eq]
      split
      · rename_i h
        rw [roundsSpec, maxLen_eq_zero_of_all_empty gs h]
        rfl
      · rename_i h
        have hlt : ((gs.map List.tail).map List.length).sum < n := by
          rw [← hn]; exact sum_map_tail_lt gs h
        have hrec := ih _ hlt (gs.map List.tail) rfl
        rw [hrec]
        have hpos := maxLen_pos gs h
        have hmt := maxLen_map_tail gs
        rw [roundsSpec, roundsSpec, hmt]
        obtain ⟨m, hm⟩ : ∃ m, maxLen gs = m + 1 := ⟨maxLen gs - 1, by omega⟩
        rw [hm]
        simp only [Nat.add_sub_cancel]
        rw [List.range_succ_eq_map]
        rw [List.flatMap_cons]
        congr 1
        · apply List.filterMap_congr
          intro g _
          cases g <;> simp
        · rw [List.flatMap_map]
          apply List.flatMap_congr
          intro i _
          rw [List.filterMap_map]
          apply List.filterMap_congr
          intro g _
          simp only [Function.comp_apply]
          exact getElem?_tail_succ g i

/-! ## No adjacent duplicate sources (C4)

The spec's guarantee "no two consecutive output items share the same
source whenever at least two sources still have items remaining" is
formalised as: whenever two consecutive output items share a source key,
everything from the first of the pair to the end of the output carries
that same source key (i.e. only one group still had items). -/

/-- Whenever two adjacent elements share a source key, the whole
remaining suffix carries that key. -/
def NoAdjDup : List Article → Prop
  | [] => True
  | [_] => True
  | a :: b :: l =>
      (srcKey a = srcKey b → ∀ x ∈ a :: b :: l, srcKey x = srcKey a) ∧ NoAdjDup (b :: l)

theorem noAdjDup_append (l2 : List Article) (h2 : NoAdjDup l2) :
    ∀ l1 : List Article, l1.Chain' (fun a b => srcKey a ≠ srcKey b) →
    (∀ x y, l1.getLast? = some x → l2.head? = some y → srcKey x = srcKey y →
      ∀ z ∈ l2, srcKey z = srcKey x) →
    NoAdjDup (l1 ++ l2) := by
  intro l1
  induction l1 with
  | nil => intro _ _; simpa using h2
  | cons a l1 ih =>
      intro hch hb
      cases l1 with
      | nil =>
          cases hl2 : l2 with
          | nil => simp [NoAdjDup]
          | cons y l2' =>
              subst hl2
              refine ⟨?_, h2⟩
              intro heq x hx
              rcases List.mem_cons.mp hx with rfl | hx'
              · rfl
              · exact hb a y rfl rfl heq x hx'
      | cons b l1' =>
          rcases List.chain'_cons.mp hch with ⟨hab, hch'⟩
          refine ⟨fun heq => absurd heq hab, ?_⟩
          exact ih hch' fun x y hx hy heq =>
            hb x y (by rw [List.getLast?_cons_cons]; exact hx) hy heq

theorem filterMap_head?_split {α β : Type} {f : α → Option β} {l : List α} {x : β}
    (h : (l.filterMap f).head? = some x) :
    ∃ l1 p l2, l = l1 ++ p :: l2 ∧ f p = some x ∧ ∀ q ∈ l1, f q = none := by
  induction l with
  | nil => simp at h
  | cons a l ih =>
      rw [List.filterMap_cons] at h
      cases hfa : f a with
      | some b =>
          rw [hfa] at h
          simp only [List.head?_cons, Option.some.injEq] at h
          exact ⟨[], a, l, by simp, by rw [hfa, h], by simp⟩
      | none =>
          rw [hfa] at h
          obtain ⟨l1, p, l2, rfl, hp, hnone⟩ := ih h
          refine ⟨a :: l1, p, l2, rfl, hp, ?_⟩
          intro q hq
          rcases List.mem_cons.mp hq with rfl | hq'
          · exact hfa
          · exact hnone q hq'

theorem filterMap_getLast?_split {α β : Type} {f : α → Option β} {l : List α} {x : β}
    (h : (l.filterMap f).getLast? = some x) :
    ∃ l1 p l2, l = l1 ++ p :: l2 ∧ f p = some x ∧ ∀ q ∈ l2, f q = none := by
  rw [← List.head?_reverse, ← List.filterMap_reverse] at h
  obtain ⟨m1, p, m2, hrev, hp, hnone⟩ := filterMap_head?_split h
  refine ⟨m2.reverse, p, m1.reverse, ?_, hp, ?_⟩
  · have hrev2 := congrArg List.reverse hrev
    rw [List.reverse_reverse] at hrev2
    rw [hrev2]
    simp [List.reverse_append]
  · intro q hq
    exact hnone q (by simpa using hq)

theorem pairwise_ne_decomp :
    ∀ (A1 : List (String × List Article)) (P : String × List Article)
      (A2 B1 : List (String × List Article)) (Q : String × List Article)
      (B2 : List (String × List Article)),
    A1 ++ P :: A2 = B1 ++ Q :: B2 →
    (A1 ++ P :: A2).Pairwise (fun p q => p.1 ≠ q.1) → P.1 = Q.1 →
    A1 = B1 ∧ P = Q ∧ A2 = B2 := by
  intro A1
  induction A1 with
  | nil =>
      intro P A2 B1 Q B2 h hpw hPQ
      cases B1 with
      | nil =>
          simp only [List.nil_append, List.cons.injEq] at h
          exact ⟨rfl, h.1, h.2⟩
      | cons r B1' =>
          simp only [List.nil_append, List.cons_append, List.cons.injEq] at h
          obtain ⟨rfl, hA2⟩ := h
          have hQmem : Q ∈ A2 := by
            rw [hA2]
            exact List.mem_append_right _ (List.mem_cons_self _ _)
          rw [List.nil_append] at hpw
          have := (List.pairwise_cons.mp hpw).1 Q hQmem
          exact absurd hPQ this
  | cons a A1' ih =>
      intro P A2 B1 Q B2 h hpw hPQ
      rw [List.cons_append] at hpw
      cases B1 with
      | nil =>
          simp only [List.cons_append, List.nil_append, List.cons.injEq] at h
          obtain ⟨rfl, hB2⟩ := h
          have hPmem : P ∈ A1' ++ P :: A2 :=
            List.mem_append_right _ (List.mem_cons_self _ _)
          have := (List.pairwise_cons.mp hpw).1 P hPmem
          exact absurd hPQ.symm this
      | cons r B1' =>
          simp only [List.cons_append, List.cons.injEq] at h
          obtain ⟨rfl, htl⟩ := h
          have hpw' : (A1' ++ P :: A2).Pairwise (fun p q => p.1 ≠ q.1) :=
            (List.pairwise_cons.mp hpw).2
          obtain ⟨h1, h2, h3⟩ := ih P A2 B1' Q B2 htl hpw' hPQ
          exact ⟨by rw [h1], h2, h3⟩

theorem noAdjDup_roundRobin_aux (n : Nat) : ∀ gs : List (String × List Article),
    ((gs.map Prod.snd).map List.length).sum = n →
    gs.Pairwise (fun p q => p.1 ≠ q.1) → GroupsHomog gs →
    NoAdjDup (roundRobin (gs.map Prod.snd)) := by
  induction n using Nat.strong_induction_on with
  | _ n ih =>
      intro gs hn hpw hh
      rw [roundRobin_eq]
      split
      · exact trivial
      · rename_i hne
        set gt := gs.map (fun p => (p.1, p.2.tail)) with hgt
        have htails : (gs.map Prod.snd).map List.tail = gt.map Prod.snd := by
          rw [hgt]
          simp [List.map_map]
        have hpw' : gt.Pairwise (fun p q => p.1 ≠ q.1) := by
          rw [hgt]
          exact hpw.map _ (fun _ _ hab => hab)
        have hh' : GroupsHomog gt := by
          intro kg hkg a ha
          rw [hgt] at hkg
          obtain ⟨p, hp, rfl⟩ := List.mem_map.mp hkg
          exact hh p hp a (List.mem_of_mem_tail ha)
        have hlt : ((gt.map Prod.snd).map List.length).sum < n := by
          rw [← htails, ← hn]
          exact sum_map_tail_lt _ hne
        have hIH : NoAdjDup (roundRobin (gt.map Prod.snd)) :=
          ih _ hlt gt rfl hpw' hh'
        rw [htails]
        refine noAdjDup_append _ hIH _ ?_ ?_
        · -- adjacent heads come from distinct keys
          rw [List.filterMap_map]
          have hpw2 : gs.Pairwise (fun p q =>
              ∀ x ∈ (List.head? ∘ Prod.snd) p, ∀ y ∈ (List.head? ∘ Prod.snd) q,
                srcKey x ≠ srcKey y) := by
            refine hpw.imp_of_mem ?_
            intro p q hp hq hne' x hx y hy
            have hx2 : srcKey x = p.1 := hh p hp x (List.mem_of_mem_head? hx)
            have hy2 : srcKey y = q.1 := hh q hq y (List.mem_of_mem_head? hy)
            rw [hx2, hy2]
            exact hne'
          exact List.Pairwise.chain'
            (List.Pairwise.filterMap _ (fun a a' h => h) hpw2)
        · -- boundary: equal keys across the round border force a single
          -- surviving group
          intro x y hlast hhead heq z hz
          rw [List.filterMap_map] at hlast
          obtain ⟨A1, P, A2, hgseq, hPx, hA2none⟩ := filterMap_getLast?_split hlast
          rw [roundRobin_eq] at hhead
          split at hhead
          · simp at hhead
          · rename_i hne2
            rw [List.filterMap_map] at hhead
            have hcomp : gt.filterMap (List.head? ∘ Prod.snd)
                = gs.filterMap (fun p => p.2.tail.head?) := by
              rw [hgt, List.filterMap_map]
              rfl
            rw [hcomp] at hhead
            cases hfm : gs.filterMap (fun p => p.2.tail.head?) with
            | nil =>
                exfalso
                apply hne2
                rw [List.all_eq_true]
                intro l hl
                obtain ⟨p, hp, rfl⟩ := List.mem_map.mp hl
                rw [hgt] at hp
                obtain ⟨q, hq, rfl⟩ := List.mem_map.mp hp
                have := List.filterMap_eq_nil_iff.mp hfm q hq
                have hq2 : q.2.tail = [] := List.head?_eq_none_iff.mp this
                simp [hq2]
            | cons y0 rest0 =>
                rw [hfm] at hhead
                simp only [List.cons_append, List.head?_cons, Option.some.injEq] at hhead
                have hh2 : (gs.filterMap (fun p => p.2.tail.head?)).head? = some y := by
                  rw [hfm]
                  simp [hhead]
                obtain ⟨B1, Q, B2, hgseq2, hQy, hB1none⟩ := filterMap_head?_split hh2
                have hPgs : P ∈ gs := by
                  rw [hgseq]
                  exact List.mem_append_right _ (List.mem_cons_self _ _)
                have hQgs : Q ∈ gs := by
                  rw [hgseq2]
                  exact List.mem_append_right _ (List.mem_cons_self _ _)
                have hx_key : srcKey x = P.1 :=
                  hh P hPgs x (List.mem_of_mem_head? (Option.mem_def.mpr hPx))
                have hy_key : srcKey y = Q.1 :=
                  hh Q hQgs y
                    (List.mem_of_mem_tail (List.mem_of_mem_head? (Option.mem_def.mpr hQy)))
                have hPQ : P.1 = Q.1 := by rw [← hx_key, ← hy_key]; exact heq
                have hgw : A1 ++ P :: A2 = B1 ++ Q :: B2 := by rw [← hgseq, ← hgseq2]
                obtain ⟨hA1B1, hPQ', hA2B2⟩ :=
                  pairwise_ne_decomp A1 P A2 B1 Q B2 hgw (by rw [← hgseq]; exact hpw) hPQ
                have hzmem : z ∈ (gt.map Prod.snd).flatten := (roundRobin_perm _).mem_iff.mp hz
                obtain ⟨l, hl, hzl⟩ := List.mem_flatten.mp hzmem
                obtain ⟨p0, hp0, rfl⟩ := List.mem_map.mp hl
                rw [hgt] at hp0
                obtain ⟨q0, hq0, rfl⟩ := List.mem_map.mp hp0
                simp only at hzl
                rw [hgseq] at hq0
                rcases List.mem_append.mp hq0 with hq0 | hq0
                · have h1 : q0.2.tail.head? = none :=
                    hB1none q0 (by rw [← hA1B1]; exact hq0)
                  have h2 : q0.2.tail = [] := List.head?_eq_none_iff.mp h1
                  rw [h2] at hzl
                  simp at hzl
                · rcases List.mem_cons.mp hq0 with heqP | hq0
                  · subst heqP
                    have hzP : z ∈ q0.2 := List.mem_of_mem_tail hzl
                    have hq0gs : q0 ∈ gs := by
                      rw [hgseq]
                      exact List.mem_append_right _ (List.mem_cons_self _ _)
                    rw [hh q0 hq0gs z hzP, hx_key]
                  · have h1 : q0.2.head? = none := hA2none q0 hq0
                    have h2 : q0.2 = [] := List.head?_eq_none_iff.mp h1
                    rw [h2] at hzl
                    simp at hzl

/-- **C4**: with `interleave=true` the selection equals the rounds
formulation — group keys sorted lexicographically, round `i` taking the
`i`-th item of every group that still has one, in key order — the worked
pool of three "A" articles and one "B" article with cap 3 yields
`[A1, B1, A2, A3]`, and whenever two consecutive output items share a
source, only that one source still had items remaining (everything from
the first of the pair onward carries that source). -/
theorem C4_interleave_rounds (pool : List Article) (cap : Nat) :
    (digest_select pool cap true
      = roundsSpec ((sortAscBy Prod.fst (cappedGroups pool cap)).map Prod.snd)) ∧
    NoAdjDup (digest_select pool cap true) ∧
    digest_select poolAB 3 true = [artA1, artB1, artA2, artA3] := by
  have hsel : digest_select pool cap true
      = roundRobin ((sortAscBy Prod.fst (cappedGroups pool cap)).map Prod.snd) := rfl
  refine ⟨?_, ?_, by decide⟩
  · rw [hsel, roundRobin_eq_roundsSpec]
  · rw [hsel]
    have hperm : List.Perm (sortAscBy Prod.fst (cappedGroups pool cap))
        (cappedGroups pool cap) := sortAscBy_perm _ _
    have hnd : ((sortAscBy Prod.fst (cappedGroups pool cap)).map Prod.fst).Nodup :=
      ((hperm.map Prod.fst).nodup_iff).mpr (cappedGroups_keys_nodup pool cap)
    have hpw : (sortAscBy Prod.fst (cappedGroups pool cap)).Pairwise
        (fun p q => p.1 ≠ q.1) := List.pairwise_map.mp hnd
    have hh : GroupsHomog (sortAscBy Prod.fst (cappedGroups pool cap)) := by
      intro kg hkg a ha
      exact cappedGroups_homog pool cap kg (hperm.mem_iff.mp hkg) a ha
    exact noAdjDup_roundRobin_aux _ _ rfl hpw hh

/-! ## Topic rotation (`choose_topic_for_today`, C3 / C7)

The store is modelled as explicit lists of rows.  `since` stands for the
ISO-8601 string `(utcnow() - timedelta(days=cooldown_days)).isoformat()`;
the store's `gte("sent_at", since)` filter compares ISO-8601 UTC strings,
whose lexicographic order is the instant order, so the window
`sent_at >= since` is the inclusive last-`cooldown_days` window. -/

/-- `get_unsent_articles` (database.py): unsent, optionally topic-filtered,
optionally requiring a (non-NULL) summary. -/
def get_unsent_articles (arts : List Article) (topic : Option String)
    (require_summary : Bool) : List Article :=
  arts.filter fun a =>
    decide (a.sent_at = none) &&
    (!require_summary || decide (a.summary ≠ none)) &&
    (match topic with
     | none => true
     | some t => decide (a.topic = some t))

/-- `get_unsent_articles_with_topic_set` (database.py): unsent articles
whose `topic` column is not NULL. -/
def get_unsent_articles_with_topic_set (arts : List Article) : List Article :=
  arts.filter fun a => decide (a.sent_at = none) && decide (a.topic ≠ none)

/-- `get_topics_used_in_last_k_days` (database.py): topics of digest-log
rows with `sent_at >= since`.  (The Python function wraps the result in a
set; only membership is ever used, so the list of topics is an equivalent
model.) -/
def get_topics_used_in_last_k_days (digests : List DigestEntry) (since : String) :
    List String :=
  (digests.filter fun d => !(strLt d.sent_at since)).map DigestEntry.topic

/-- The generator feeding `collections.Counter`:
`(a.get("topic") for a in articles_with_topic if a.get("topic"))` — the
truthy topics in pool order (`None` and `""` are falsy). -/
def truthyTopics (pool : List Article) : List String :=
  pool.filterMap fun a =>
    match a.topic with
    | none => none
    | some t => if t = "" then none else some t

/-- Keys of a `Counter` built from a list: first-occurrence order
(Python dicts keep insertion order). -/
def firstOccurrences (l : List String) : List String :=
  l.foldl (fun acc t => if t ∈ acc then acc else acc ++ [t]) []

/-- Python's `max(items, key=lambda x: x[1])`: the first item attaining
the maximal second component (Python `max` keeps the earlier element on
ties). -/
def argmaxFirst : List (String × Nat) → Option (String × Nat)
  | [] => none
  | p :: l => some (l.foldl (fun q r => if q.2 < r.2 then r else q) p)

/-- The truthy topics of the unsent topic-labelled pool, in pool order. -/
def pendingTopics (arts : List Article) : List String :=
  truthyTopics (get_unsent_articles_with_topic_set arts)

/-- `counts.items()` of `choose_topic_for_today`'s `Counter`: one pair
per distinct truthy topic, in first-occurrence (insertion) order, with
its pending-article count. -/
def countsListOf (arts : List Article) : List (String × Nat) :=
  (firstOccurrences (pendingTopics arts)).map fun t => (t, (pendingTopics arts).count t)

/-- `eligible` of `choose_topic_for_today`: the counted topics outside
the cooldown window, falling back to all counted topics when exclusion
empties the dict. -/
def eligibleOf (arts : List Article) (digests : List DigestEntry) (since : String) :
    List (String × Nat) :=
  let e := (countsListOf arts).filter fun tc =>
    !((get_topics_used_in_last_k_days digests since).contains tc.1)
  if e.isEmpty then countsListOf arts else e

/-- `choose_topic_for_today` (send_daily_email.py lines 189–208): count
pending articles per truthy topic (insertion order), drop topics used in
the cooldown window, fall back to all counted topics when that empties
the pool, and take Python's `max` by count. -/
def choose_topic_for_today (arts : List Article) (digests : List DigestEntry)
    (since : String) : Option String :=
  if (get_unsent_articles_with_topic_set arts).isEmpty then none
  else
    match argmaxFirst (eligibleOf arts digests since) with
    | none => none
    | some tc => some tc.1

/-- The fixed topic enumeration of `assign_topics.py`. -/
def TOPICS : List String :=
  ["Models", "Agents & Tools", "MCP & SKILLs", "Safety", "Industry"]

theorem firstOccurrences_foldl_mem (x : String) :
    ∀ (l : List String) (acc : List String),
    (x ∈ l.foldl (fun acc t => if t ∈ acc then acc else acc ++ [t]) acc ↔
      x ∈ acc ∨ x ∈ l) := by
  intro l
  induction l with
  | nil => intro acc; simp
  | cons t l ih =>
      intro acc
      simp only [List.foldl_cons]
      rw [ih]
      by_cases ht : t ∈ acc
      · simp only [if_pos ht, List.mem_cons]
        constructor
        · rintro (hx | hx)
          · exact Or.inl hx
          · exact Or.inr (Or.inr hx)
        · rintro (hx | rfl | hx)
          · exact Or.inl hx
          · exact Or.inl ht
          · exact Or.inr hx
      · simp only [if_neg ht, List.mem_append, List.mem_singleton, List.mem_cons]
        tauto

theorem firstOccurrences_mem (x : String) (l : List String) :
    x ∈ firstOccurrences l ↔ x ∈ l := by
  rw [firstOccurrences, firstOccurrences_foldl_mem]
  simp

theorem firstOccurrences_foldl_nodup :
    ∀ (l : List String) (acc : List String), acc.Nodup →
    (l.foldl (fun acc t => if t ∈ acc then acc else acc ++ [t]) acc).Nodup := by
  intro l
  induction l with
  | nil => intro acc h; exact h
  | cons t l ih =>
      intro acc h
      simp only [List.foldl_cons]
      apply ih
      by_cases ht : t ∈ acc
      · simpa [if_pos ht] using h
      · rw [if_neg ht, List.nodup_append]
        refine ⟨h, List.nodup_singleton _, ?_⟩
        intro x hx hx'
        simp only [List.mem_singleton] at hx'
        subst hx'
        exact ht hx

theorem firstOccurrences_nodup (l : List String) : (firstOccurrences l).Nodup :=
  firstOccurrences_foldl_nodup l [] (by simp)

/-- In a duplicate-free list, earlier elements have smaller `indexOf`. -/
theorem nodup_pairwise_indexOf (l : List String) (h : l.Nodup) :
    l.Pairwise fun a b => l.indexOf a < l.indexOf b := by
  induction l with
  | nil => simp
  | cons x l ih =>
      obtain ⟨hx, hnd⟩ := List.nodup_cons.mp h
      refine List.pairwise_cons.mpr ⟨?_, ?_⟩
      · intro b hb
        have hxb : ¬ (x = b) := fun hc => hx (hc ▸ hb)
        simp only [List.indexOf_cons]
        rw [beq_self_eq_true]
        have : (x == b) = false := beq_eq_false_iff_ne.mpr hxb
        rw [this]
        simp
      · refine (ih hnd).imp_of_mem ?_
        intro a b ha hb hab
        have hxa : (x == a) = false := beq_eq_false_iff_ne.mpr (fun hc => hx (hc ▸ ha))
        have hxb : (x == b) = false := beq_eq_false_iff_ne.mpr (fun hc => hx (hc ▸ hb))
        simp only [List.indexOf_cons, hxa, hxb]
        simpa using hab

/-- Python's `max` over a nonempty list: the result is an element, it
bounds every element, and everything strictly before it is strictly
smaller (Python `max` keeps the first maximum). -/
theorem argmax_foldl_spec :
    ∀ (l : List (String × Nat)) (p : String × Nat),
    ∃ q, l.foldl (fun q r => if q.2 < r.2 then r else q) p = q ∧
      (∃ m1 m2, p :: l = m1 ++ q :: m2 ∧ ∀ r ∈ m1, r.2 < q.2) ∧
      (∀ r ∈ p :: l, r.2 ≤ q.2) := by
  intro l
  induction l with
  | nil =>
      intro p
      exact ⟨p, rfl, ⟨[], [], rfl, by simp⟩, by simp⟩
  | cons r l ih =>
      intro p
      simp only [List.foldl_cons]
      by_cases h : p.2 < r.2
      · obtain ⟨q, hq, ⟨m1, m2, hdec, hstrict⟩, hle⟩ := ih r
        rw [if_pos h]
        refine ⟨q, hq, ⟨p :: m1, m2, ?_, ?_⟩, ?_⟩
        · rw [List.cons_append, ← hdec]
        · intro s hs
          rcases List.mem_cons.mp hs with rfl | hs'
          · exact lt_of_lt_of_le h (hle r (List.mem_cons_self _ _))
          · exact hstrict s hs'
        · intro s hs
          rcases List.mem_cons.mp hs with rfl | hs'
          · exact le_of_lt (lt_of_lt_of_le h (hle r (List.mem_cons_self _ _)))
          · exact hle s hs'
      · obtain ⟨q, hq, ⟨m1, m2, hdec, hstrict⟩, hle⟩ := ih p
        rw [if_neg h]
        have hr : r.2 ≤ p.2 := Nat.le_of_not_lt h
        cases m1 with
        | nil =>
            simp only [List.nil_append] at hdec
            injection hdec with h1 h2
            refine ⟨q, hq, ⟨[], r :: l, by rw [List.nil_append, h1], by simp⟩, ?_⟩
            intro s hs
            rcases List.mem_cons.mp hs with rfl | hs'
            · exact hle s (List.mem_cons_self _ _)
            · rcases List.mem_cons.mp hs' with rfl | hs''
              · exact le_trans hr (hle p (List.mem_cons_self _ _))
              · exact hle s (List.mem_cons_of_mem _ hs'')
        | cons s m1' =>
            simp only [List.cons_append] at hdec
            injection hdec with h1 h2
            subst h1
            refine ⟨q, hq, ⟨p :: r :: m1', m2, ?_, ?_⟩, ?_⟩
            · rw [h2]
              simp
            · intro u hu
              have hpq : p.2 < q.2 := hstrict p (List.mem_cons_self _ _)
              rcases List.mem_cons.mp hu with rfl | hu'
              · exact hpq
              · rcases List.mem_cons.mp hu' with rfl | hu''
                · exact lt_of_le_of_lt hr hpq
                · exact hstrict u (List.mem_cons_of_mem _ hu'')
            · intro u hu
              rcases List.mem_cons.mp hu with rfl | hu'
              · exact hle u (List.mem_cons_self _ _)
              · rcases List.mem_cons.mp hu' with rfl | hu''
                · exact le_trans hr (hle p (List.mem_cons_self _ _))
                · exact hle u (List.mem_cons_of_mem _ hu'')

/-! ## Concrete rotation scenarios -/

/-- An unsent "Safety" article. -/
def safetyArt (i : Nat) : Article := { id := i, topic := some "Safety" }
/-- An unsent "Models" article. -/
def modelsArt : Article := { id := 10, topic := some "Models" }
/-- Digest log: "Safety" was sent two days before `nowEx`. -/
def safetyDigests : List DigestEntry := [{ topic := "Safety", sent_at := "2026-10-10T00:00:00" }]
/-- `(utcnow() - timedelta(days=5)).isoformat()` for `nowEx` = 2026-10-12:
the five-day cooldown window cutoff. -/
def sinceEx : String := "2026-10-07T00:00:00"
/-- Pool where "Safety" has the most pending articles, "Models" has one. -/
def safetyPoolA : List Article := [safetyArt 1, safetyArt 2, safetyArt 3, modelsArt]
/-- Pool where only "Safety" has pending articles. -/
def safetyPoolB : List Article := [safetyArt 1, safetyArt 2, safetyArt 3]

/-- Pool whose two topics tie at one pending article each, "Industry"
occurring first. -/
def cxArtIndustry : Article := { id := 1, topic := some "Industry" }
def cxArtModels : Article := { id := 2, topic := some "Models" }

theorem contains_iff_mem {l : List String} {x : String} : l.contains x = true ↔ x ∈ l :=
  List.elem_iff

theorem mem_countsListOf {arts : List Article} {q : String × Nat}
    (h : q ∈ countsListOf arts) :
    q.1 ∈ pendingTopics arts ∧ q = (q.1, (pendingTopics arts).count q.1) := by
  obtain ⟨k, hk, rfl⟩ := List.mem_map.mp h
  exact ⟨(firstOccurrences_mem _ _).mp hk, rfl⟩

theorem eligibleOf_sub {arts : List Article} {digests : List DigestEntry}
    {since : String} {q : String × Nat} (h : q ∈ eligibleOf arts digests since) :
    q ∈ countsListOf arts := by
  simp only [eligibleOf] at h
  split at h
  · exact h
  · exact (List.mem_filter.mp h).1

/-- `argmaxFirst` on a nonempty list: membership, maximality, and
first-maximum decomposition. -/
theorem argmaxFirst_spec (l : List (String × Nat)) (hne : l ≠ []) :
    ∃ q, argmaxFirst l = some q ∧ q ∈ l ∧ (∀ r ∈ l, r.2 ≤ q.2) ∧
      (∃ m1 m2, l = m1 ++ q :: m2 ∧ ∀ r ∈ m1, r.2 < q.2) := by
  cases l with
  | nil => exact absurd rfl hne
  | cons p l =>
      obtain ⟨q, hq, ⟨m1, m2, hdec, hstrict⟩, hle⟩ := argmax_foldl_spec l p
      refine ⟨q, by simp [argmaxFirst, hq], ?_, hle, ⟨m1, m2, hdec, hstrict⟩⟩
      rw [hdec]
      exact List.mem_append_right _ (List.mem_cons_self _ _)

/-- **C3**: `choose_topic_for_today` excludes topics whose digest-log
entry falls in the inclusive cooldown window (`sent_at >= since`) and
returns a pending topic of maximal pending count among the eligible
topics; when every pending topic was used in the window the exclusion is
dropped and a maximal topic among all pending topics is returned.  In the
worked scenario ("Safety" logged two days ago, cooldown five days,
"Safety" with the most pending articles), "Models" is chosen; with no
other pending topic, "Safety" is chosen anyway. -/
theorem C3_cooldown_rotation (arts : List Article) (digests : List DigestEntry)
    (since : String)
    (hpool : ∃ a ∈ arts, a.sent_at = none ∧ ∃ t, a.topic = some t ∧ t ≠ "") :
    (∃ t, choose_topic_for_today arts digests since = some t ∧
      t ∈ pendingTopics arts ∧
      ((∃ k ∈ pendingTopics arts, k ∉ get_topics_used_in_last_k_days digests since) →
        t ∉ get_topics_used_in_last_k_days digests since ∧
        ∀ k ∈ pendingTopics arts, k ∉ get_topics_used_in_last_k_days digests since →
          (pendingTopics arts).count k ≤ (pendingTopics arts).count t) ∧
      ((∀ k ∈ pendingTopics arts, k ∈ get_topics_used_in_last_k_days digests since) →
        ∀ k ∈ pendingTopics arts,
          (pendingTopics arts).count k ≤ (pendingTopics arts).count t)) ∧
    choose_topic_for_today safetyPoolA safetyDigests sinceEx = some "Models" ∧
    choose_topic_for_today safetyPoolB safetyDigests sinceEx = some "Safety" := by
  refine ⟨?_, by decide, by decide⟩
  obtain ⟨a, ha, hsent, t0, htop, htne⟩ := hpool
  have hmem_pool : a ∈ get_unsent_articles_with_topic_set arts := by
    rw [get_unsent_articles_with_topic_set, List.mem_filter]
    exact ⟨ha, by simp [hsent, htop]⟩
  have ht0 : t0 ∈ pendingTopics arts := by
    rw [pendingTopics, truthyTopics, List.mem_filterMap]
    exact ⟨a, hmem_pool, by simp [htop, htne]⟩
  have hkeys : t0 ∈ firstOccurrences (pendingTopics arts) :=
    (firstOccurrences_mem _ _).mpr ht0
  have hcounts_ne : countsListOf arts ≠ [] := by
    rw [countsListOf]
    intro hc
    rw [List.map_eq_nil_iff] at hc
    rw [hc] at hkeys
    simp at hkeys
  have hpool_ne : ¬ ((get_unsent_articles_with_topic_set arts).isEmpty = true) := by
    rw [List.isEmpty_iff]
    intro hc
    rw [hc] at hmem_pool
    simp at hmem_pool
  have hchoose : choose_topic_for_today arts digests since =
      match argmaxFirst (eligibleOf arts digests since) with
      | none => none
      | some tc => some tc.1 := by
    rw [choose_topic_for_today, if_neg hpool_ne]
  by_cases hex : ∃ k ∈ pendingTopics arts, k ∉ get_topics_used_in_last_k_days digests since
  · -- some pending topic survives the exclusion
    obtain ⟨k1, hk1, hk1n⟩ := hex
    have hk1pair : (k1, (pendingTopics arts).count k1) ∈
        (countsListOf arts).filter (fun tc =>
          !((get_topics_used_in_last_k_days digests since).contains tc.1)) := by
      rw [List.mem_filter]
      constructor
      · rw [countsListOf]
        exact List.mem_map.mpr ⟨k1, (firstOccurrences_mem _ _).mpr hk1, rfl⟩
      · simp only [Bool.not_eq_eq_eq_not, Bool.not_true]
        rw [← Bool.not_eq_true]
        intro hc
        exact hk1n (contains_iff_mem.mp hc)
    have hfilter_ne : (countsListOf arts).filter (fun tc =>
        !((get_topics_used_in_last_k_days digests since).contains tc.1)) ≠ [] :=
      List.ne_nil_of_mem hk1pair
    have helig : eligibleOf arts digests since =
        (countsListOf arts).filter (fun tc =>
          !((get_topics_used_in_last_k_days digests since).contains tc.1)) := by
      simp only [eligibleOf]
      rw [if_neg (by rwa [Ne, ← List.isEmpty_iff] at hfilter_ne)]
    obtain ⟨q, hq, hqmem, hle, _⟩ :=
      argmaxFirst_spec (eligibleOf arts digests since) (by rw [helig]; exact hfilter_ne)
    obtain ⟨hq1mem, hqshape⟩ := mem_countsListOf (eligibleOf_sub hqmem)
    have hqnotex : q.1 ∉ get_topics_used_in_last_k_days digests since := by
      rw [helig] at hqmem
      have := (List.mem_filter.mp hqmem).2
      simp only [Bool.not_eq_eq_eq_not, Bool.not_true] at this
      intro hc
      rw [contains_iff_mem.mpr hc] at this
      simp at this
    refine ⟨q.1, ?_, hq1mem, ?_, ?_⟩
    · rw [hchoose, hq]
    · intro _
      refine ⟨hqnotex, ?_⟩
      intro k hk hkn
      have hkpair : (k, (pendingTopics arts).count k) ∈ eligibleOf arts digests since := by
        rw [helig, List.mem_filter]
        constructor
        · rw [countsListOf]
          exact List.mem_map.mpr ⟨k, (firstOccurrences_mem _ _).mpr hk, rfl⟩
        · simp only [Bool.not_eq_eq_eq_not, Bool.not_true]
          rw [← Bool.not_eq_true]
          intro hc
          exact hkn (contains_iff_mem.mp hc)
      have := hle _ hkpair
      calc (pendingTopics arts).count k ≤ q.2 := this
        _ = (pendingTopics arts).count q.1 := by rw [hqshape]
    · intro hall
      exact absurd (hall k1 hk1) hk1n
  · -- every pending topic was used recently: fallback to all counts
    push_neg at hex
    have hfilter_nil : (countsListOf arts).filter (fun tc =>
        !((get_topics_used_in_last_k_days digests since).contains tc.1)) = [] := by
      rw [List.filter_eq_nil_iff]
      intro q hqc
      obtain ⟨hq1, _⟩ := mem_countsListOf hqc
      simp only [Bool.not_eq_eq_eq_not, Bool.not_true, Bool.not_eq_false]
      exact contains_iff_mem.mpr (hex q.1 hq1)
    have helig : eligibleOf arts digests since = countsListOf arts := by
      simp only [eligibleOf]
      rw [hfilter_nil]
      simp
    obtain ⟨q, hq, hqmem, hle, _⟩ :=
      argmaxFirst_spec (eligibleOf arts digests since) (by rw [helig]; exact hcounts_ne)
    obtain ⟨hq1mem, hqshape⟩ := mem_countsListOf (eligibleOf_sub hqmem)
    refine ⟨q.1, ?_, hq1mem, ?_, ?_⟩
    · rw [hchoose, hq]
    · intro hex'
      obtain ⟨k, hk, hkn⟩ := hex'
      exact absurd (hex k hk) hkn
    · intro _ k hk
      have hkpair : (k, (pendingTopics arts).count k) ∈ eligibleOf arts digests since := by
        rw [helig, countsListOf]
        exact List.mem_map.mpr ⟨k, (firstOccurrences_mem _ _).mpr hk, rfl⟩
      have := hle _ hkpair
      calc (pendingTopics arts).count k ≤ q.2 := this
        _ = (pendingTopics arts).count q.1 := by rw [hqshape]

/-- Witness for C3: the worked "Safety"-cooldown scenario. -/
theorem C3_cooldown_rotation_witness :
    choose_topic_for_today safetyPoolA safetyDigests sinceEx = some "Models" :=
  (C3_cooldown_rotation safetyPoolA safetyDigests sinceEx
    ⟨safetyArt 1, by decide, by decide, "Safety", by decide, by decide⟩).2.1

/-- **C7 counterexample**: with two pending topics tied at one article
each — "Industry" occurring before "Models" in the pool — the code
returns "Industry", although "Models" comes first in the fixed
enumeration `TOPICS`.  (Python's `Counter` keeps insertion order and
`max` keeps the first maximum, so ties go to the topic whose article
appears first in the pool, not to `TOPICS` order.) -/
theorem C7_counterexample :
    choose_topic_for_today [cxArtIndustry, cxArtModels] [] "" = some "Industry" ∧
    (pendingTopics [cxArtIndustry, cxArtModels]).count "Industry"
      = (pendingTopics [cxArtIndustry, cxArtModels]).count "Models" ∧
    TOPICS.indexOf "Models" < TOPICS.indexOf "Industry" := by
  decide

/-- **C7 (amended)**: when `choose_topic_for_today` returns a topic, that
topic is a pending topic of maximal count among the effective eligible
set (`eligibleOf` — the cooldown-filtered counts, or all counts when the
filter empties), and among the eligible topics tying that count it is the
one whose first pending article occurs earliest (first-occurrence /
insertion order of the `Counter`, not the fixed `TOPICS` order); this is
still deterministic for a given snapshot. -/
theorem C7_tie_break_first_occurrence (arts : List Article)
    (digests : List DigestEntry) (since : String) (t : String)
    (h : choose_topic_for_today arts digests since = some t) :
    t ∈ firstOccurrences (pendingTopics arts) ∧
    (∀ q ∈ eligibleOf arts digests since, q.2 ≤ (pendingTopics arts).count t) ∧
    (∀ q ∈ eligibleOf arts digests since, q.2 = (pendingTopics arts).count t →
      (firstOccurrences (pendingTopics arts)).indexOf t
        ≤ (firstOccurrences (pendingTopics arts)).indexOf q.1) := by
  rw [choose_topic_for_today] at h
  split at h
  · exact absurd h (by simp)
  · rename_i hne
    have hge : eligibleOf arts digests since ≠ [] := by
      intro hc
      rw [hc] at h
      simp [argmaxFirst] at h
    obtain ⟨q, hq, hqmem, hle, m1, m2, hdec, hstrict⟩ :=
      argmaxFirst_spec (eligibleOf arts digests since) hge
    rw [hq] at h
    simp only [Option.some.injEq] at h
    subst h
    obtain ⟨hq1keys', hqshape⟩ := mem_countsListOf (eligibleOf_sub hqmem)
    have hq1keys : q.1 ∈ firstOccurrences (pendingTopics arts) :=
      (firstOccurrences_mem _ _).mpr hq1keys'
    have hcount : q.2 = (pendingTopics arts).count q.1 := by rw [hqshape]
    refine ⟨hq1keys, ?_, ?_⟩
    · intro r hr
      rw [← hcount]
      exact hle r hr
    · -- first-occurrence ordering among equal counts
      have hpwkeys := nodup_pairwise_indexOf _ (firstOccurrences_nodup (pendingTopics arts))
      have hpwcounts : (countsListOf arts).Pairwise
          (fun p' q' => (firstOccurrences (pendingTopics arts)).indexOf p'.1
            < (firstOccurrences (pendingTopics arts)).indexOf q'.1) := by
        rw [countsListOf]
        exact List.pairwise_map.mpr hpwkeys
      have hsub : (eligibleOf arts digests since).Sublist (countsListOf arts) := by
        simp only [eligibleOf]
        split
        · exact List.Sublist.refl _
        · exact List.filter_sublist _
      have hpwelig := hpwcounts.sublist hsub
      intro r hr hreq
      have hrnot1 : r ∉ m1 := by
        intro hc
        have := hstrict r hc
        rw [hreq, ← hcount] at this
        exact lt_irrefl _ this
      have hrq : r ∈ q :: m2 := by
        rw [hdec] at hr
        rcases List.mem_append.mp hr with hr' | hr'
        · exact absurd hr' hrnot1
        · exact hr'
      rcases List.mem_cons.mp hrq with rfl | hr2
      · exact le_refl _
      · rw [hdec] at hpwelig
        have := (List.pairwise_cons.mp (List.pairwise_append.mp hpwelig).2.1).1 r hr2
        exact le_of_lt this

/-- Witness for the amended C7 at a concrete snapshot. -/
theorem C7_tie_break_first_occurrence_witness :
    "Industry" ∈ firstOccurrences (pendingTopics [cxArtIndustry, cxArtModels]) :=
  (C7_tie_break_first_occurrence [cxArtIndustry, cxArtModels] [] "" "Industry"
    (by decide)).1

/-! ## Feed merging (`feed_config.py`, C5 / C6)

`_normalize_for_match` lower-cases, strips, and removes the suffixes
" blog", " ai", " news", " research" (one pass, in that order, stripping
after each removal).  Python's `str.lower`/`str.strip` are modelled on
the ASCII range (feed names in this repository are ASCII). -/

/-- A directive feed entry `{"name", "source", "url"}` (the parser sets
`source = name`). -/
structure DFeed where
  name : String
  source : String
  url : String
  deriving DecidableEq, Repr

/-- A `feed_urls.md` entry `{"name", "url"}`. -/
structure UFeed where
  name : String
  url : String
  deriving DecidableEq, Repr

/-- A merged entry `{"name", "source", "primary_url", "fallback_url"}`. -/
structure MergedFeed where
  name : String
  source : String
  primary_url : String
  fallback_url : Option String
  deriving DecidableEq, Repr

/-- Python `str.strip()`. -/
def pyStrip (s : String) : String :=
  ⟨((s.data.dropWhile Char.isWhitespace).reverse.dropWhile Char.isWhitespace).reverse⟩

/-- Python `str.lower()` (ASCII). -/
def pyLower (s : String) : String := ⟨s.data.map Char.toLower⟩

/-- Python `needle in haystack` on strings: contiguous substring test. -/
def subIn : List Char → List Char → Bool
  | n, [] => n.isEmpty
  | n, c :: t => n.isPrefixOf (c :: t) || subIn n t

/-- `s.split()[0]` for a stripped nonempty string: the first
whitespace-delimited word. -/
def firstWord (s : String) : List Char :=
  (s.data.dropWhile Char.isWhitespace).takeWhile fun c => !c.isWhitespace

/-- One pass of `if s.endswith(suffix): s = s[:-len(suffix)].strip()`. -/
def stripOneSuffix (s suf : String) : String :=
  if suf.data.isSuffixOf s.data then
    pyStrip ⟨s.data.take (s.data.length - suf.data.length)⟩
  else s

/-- `_normalize_for_match` (feed_config.py lines 70–76). -/
def _normalize_for_match (s : String) : String :=
  stripOneSuffix (stripOneSuffix (stripOneSuffix (stripOneSuffix
    (pyStrip (pyLower s)) " blog") " ai") " news") " research"

/-- `_is_same_source` (feed_config.py lines 79–87): equal, substring
either way, or equal first word (the first-word test only for nonempty
normalized names). -/
def _is_same_source (directive_name feed_url_name : String) : Bool :=
  let nd := _normalize_for_match directive_name
  let nf := _normalize_for_match feed_url_name
  (nd == nf || subIn nd.data nf.data || subIn nf.data nd.data) ||
    (!(nd == "") && !(nf == "") && (firstWord nd == firstWord nf))

/-- The inner loop of step 1 of `build_merged_feeds`: the first
`feed_urls` entry (with its index) matching the directive source. -/
def findFallbackIdx (src : String) : Nat → List UFeed → Option (Nat × UFeed)
  | _, [] => none
  | i, fu :: rest =>
      if _is_same_source src fu.name then some (i, fu)
      else findFallbackIdx src (i + 1) rest

/-- `used_feed_urls_indices` after step 1. -/
def usedIndices (ds : List DFeed) (fus : List UFeed) : List Nat :=
  ds.filterMap fun d => (findFallbackIdx d.source 0 fus).map Prod.fst

/-- Step 1 of `build_merged_feeds`: one entry per directive feed, with
the fallback URL of its first matching `feed_urls` entry, if any. -/
def step1 (ds : List DFeed) (fus : List UFeed) : List MergedFeed :=
  ds.map fun d =>
    { name := d.name, source := d.source, primary_url := d.url,
      fallback_url := (findFallbackIdx d.source 0 fus).map fun p => p.2.url }

/-- Step 2 of `build_merged_feeds`, instrumented with the index of the
`feed_urls` entry each standalone output came from: skip consumed
indices and entries matching any already-merged entry, append the rest. -/
def step2Aux (used : List Nat) : Nat → List MergedFeed → List UFeed → List (Nat × MergedFeed)
  | _, _, [] => []
  | i, acc, fu :: rest =>
      if used.contains i || acc.any (fun m => _is_same_source m.source fu.name) then
        step2Aux used (i + 1) acc rest
      else
        (i, { name := fu.name, source := fu.name, primary_url := fu.url,
              fallback_url := none }) ::
          step2Aux used (i + 1)
            (acc ++ [{ name := fu.name, source := fu.name, primary_url := fu.url,
                       fallback_url := none }]) rest

/-- The standalone entries of step 2, each tagged with its source index. -/
def standalonePairs (ds : List DFeed) (fus : List UFeed) : List (Nat × MergedFeed) :=
  step2Aux (usedIndices ds fus) 0 (step1 ds fus) fus

/-- `build_merged_feeds` (feed_config.py lines 90–131). -/
def build_merged_feeds (ds : List DFeed) (fus : List UFeed) : List MergedFeed :=
  step1 ds fus ++ (standalonePairs ds fus).map Prod.snd

/-! ## C5 / C6: merge guarantees -/

def googleP : List DFeed := [⟨"Google AI Blog", "Google AI Blog", "urlA"⟩]
def googleS : List UFeed := [⟨"Google AI", "urlB"⟩]
/-- Two primary entries that match each other (identical names). -/
def dupP : List DFeed := [⟨"abc", "abc", "u1"⟩, ⟨"abc", "abc", "u2"⟩]
/-- Primaries "abc" and "bcd" do not match each other, yet both match the
secondary "bc"; the secondary "abc news" matches the merged "abc". -/
def ds6 : List DFeed := [⟨"abc", "abc", "u1"⟩, ⟨"bcd", "bcd", "u2"⟩]
def fus6 : List UFeed := [⟨"bc", "u3"⟩, ⟨"abc news", "u4"⟩]

/-- **C5 counterexample**: `build_merged_feeds` never de-duplicates the
primary list against itself, so two matching primary entries yield two
output entries with matching canonical keys, refuting "for every pair of
input lists ... no two entries have matching canonical keys". -/
theorem C5_counterexample :
    (build_merged_feeds dupP []).length = 2 ∧
    ∃ m1 ∈ build_merged_feeds dupP [], ∃ m2 ∈ build_merged_feeds dupP [],
      m1 ≠ m2 ∧ _is_same_source m1.source m2.source = true := by
  decide

/-- Step 2 never matches an emitted entry against the accumulated merged
list, and its own output is pairwise non-matching. -/
theorem step2Aux_no_match (used : List Nat) :
    ∀ (fus : List UFeed) (i : Nat) (acc : List MergedFeed),
    (∀ m ∈ acc, ∀ p ∈ step2Aux used i acc fus,
      _is_same_source m.source p.2.source = false) ∧
    ((step2Aux used i acc fus).map Prod.snd).Pairwise
      (fun m1 m2 => _is_same_source m1.source m2.source = false) := by
  intro fus
  induction fus with
  | nil => intro i acc; exact ⟨by intro m _ p hp; simp [step2Aux] at hp, by simp [step2Aux]⟩
  | cons fu rest ih =>
      intro i acc
      simp only [step2Aux]
      split
      · exact ⟨fun m hm p hp => (ih (i + 1) acc).1 m hm p hp, (ih (i + 1) acc).2⟩
      · rename_i hcond
        rw [Bool.or_eq_true, not_or] at hcond
        obtain ⟨-, hany⟩ := hcond
        rw [Bool.not_eq_true, List.any_eq_false] at hany
        constructor
        · intro m hm p hp
          rcases List.mem_cons.mp hp with rfl | hp'
          · simpa using hany m hm
          · exact (ih (i + 1) (acc ++ [_])).1 m (List.mem_append_left _ hm) p hp'
        · rw [List.map_cons]
          refine List.pairwise_cons.mpr ⟨?_, (ih (i + 1) (acc ++ [_])).2⟩
          intro m2 hm2
          obtain ⟨p2, hp2, rfl⟩ := List.mem_map.mp hm2
          exact (ih (i + 1) (acc ++ [_])).1 _
            (List.mem_append_right _ (List.mem_singleton.mpr rfl)) p2 hp2

/-- Step 2 emits at most one entry per `feed_urls` slot: it consumes the
list left to right with a strictly increasing index counter. -/
theorem step2Aux_indices (used : List Nat) :
    ∀ (fus : List UFeed) (i : Nat) (acc : List MergedFeed),
    (∀ p ∈ step2Aux used i acc fus, i ≤ p.1 ∧ p.1 ∉ used ∧
      ∃ fu, fus[p.1 - i]? = some fu ∧
        p.2 = { name := fu.name, source := fu.name, primary_url := fu.url,
                fallback_url := none }) ∧
    ((step2Aux used i acc fus).map Prod.fst).Pairwise (· < ·) := by
  intro fus
  induction fus with
  | nil => intro i acc; exact ⟨by intro p hp; simp [step2Aux] at hp, by simp [step2Aux]⟩
  | cons fu rest ih =>
      intro i acc
      simp only [step2Aux]
      split
      · refine ⟨?_, (ih (i + 1) acc).2⟩
        intro p hp
        obtain ⟨h1, h2, fu', hfu', hshape⟩ := (ih (i + 1) acc).1 p hp
        refine ⟨by omega, h2, fu', ?_, hshape⟩
        have : p.1 - i = (p.1 - (i + 1)) + 1 := by omega
        rw [this, List.getElem?_cons_succ]
        exact hfu'
      · rename_i hcond
        rw [Bool.or_eq_true, not_or] at hcond
        obtain ⟨hused, -⟩ := hcond
        rw [Bool.not_eq_true] at hused
        constructor
        · intro p hp
          rcases List.mem_cons.mp hp with rfl | hp'
          · refine ⟨le_refl _, by simpa using hused, fu, by simp, rfl⟩
          · obtain ⟨h1, h2, fu', hfu', hshape⟩ := (ih (i + 1) (acc ++ [_])).1 p hp'
            refine ⟨by omega, h2, fu', ?_, hshape⟩
            have : p.1 - i = (p.1 - (i + 1)) + 1 := by omega
            rw [this, List.getElem?_cons_succ]
            exact hfu'
        · rw [List.map_cons]
          refine List.pairwise_cons.mpr ⟨?_, (ih (i + 1) (acc ++ [_])).2⟩
          intro j hj
          obtain ⟨p2, hp2, rfl⟩ := List.mem_map.mp hj
          have := ((ih (i + 1) (acc ++ [_])).1 p2 hp2).1
          omega

/-- **C5 (amended)**: provided no two primary entries match each other
under the canonical-key rule, `build_merged_feeds` returns a list with no
two matching entries; every primary entry is always represented as one
output entry, and the output length is always at most
`len(primary) + len(secondary)`. -/
theorem C5_merge_invariants (ds : List DFeed) (fus : List UFeed)
    (hp : ds.Pairwise fun d1 d2 => _is_same_source d1.source d2.source = false) :
    ((build_merged_feeds ds fus).Pairwise
      fun m1 m2 => _is_same_source m1.source m2.source = false) ∧
    (∀ d ∈ ds, ∃ m ∈ build_merged_feeds ds fus,
      m.name = d.name ∧ m.source = d.source ∧ m.primary_url = d.url) ∧
    (build_merged_feeds ds fus).length ≤ ds.length + fus.length := by
  refine ⟨?_, ?_, ?_⟩
  · rw [build_merged_feeds, List.pairwise_append]
    refine ⟨?_, ?_, ?_⟩
    · rw [step1]
      exact List.pairwise_map.mpr hp
    · exact (step2Aux_no_match (usedIndices ds fus) fus 0 (step1 ds fus)).2
    · intro m1 hm1 m2 hm2
      obtain ⟨p2, hp2, rfl⟩ := List.mem_map.mp hm2
      exact (step2Aux_no_match (usedIndices ds fus) fus 0 (step1 ds fus)).1 m1 hm1 p2 hp2
  · intro d hd
    have hm : ({ name := d.name, source := d.source, primary_url := d.url,
                 fallback_url := (findFallbackIdx d.source 0 fus).map (fun p => p.2.url) }
                 : MergedFeed)
        ∈ build_merged_feeds ds fus := by
      rw [build_merged_feeds]
      exact List.mem_append_left _ (List.mem_map.mpr ⟨d, hd, rfl⟩)
    exact ⟨_, hm, rfl, rfl, rfl⟩
  · rw [build_merged_feeds, List.length_append, List.length_map]
    have h1 : (step1 ds fus).length = ds.length := List.length_map _ _
    have h2 : ∀ (l : List UFeed) (i : Nat) (acc : List MergedFeed),
        (step2Aux (usedIndices ds fus) i acc l).length ≤ l.length := by
      intro l
      induction l with
      | nil => intro i acc; simp [step2Aux]
      | cons fu rest ih =>
          intro i acc
          simp only [step2Aux]
          split
          · exact le_trans (ih (i + 1) acc) (by simp)
          · simpa using ih (i + 1) (acc ++ [_])
    have := h2 fus 0 (step1 ds fus)
    rw [h1]
    rw [standalonePairs]
    omega

/-- Witness for the amended C5: the Google example inputs have pairwise
non-matching primaries, and the merged output length is bounded. -/
theorem C5_merge_invariants_witness :
    (build_merged_feeds googleP googleS).length ≤ googleP.length + googleS.length :=
  (C5_merge_invariants googleP googleS (by decide)).2.2

/-- **C6 counterexample**: on `ds6`/`fus6` the secondary "bc" (url `u3`)
is consumed as a fallback by *two* primaries (duplicated contribution)
and the secondary "abc news" (url `u4`) contributes nothing at all (it is
dropped as a duplicate of the merged "abc"), refuting "never both, never
lost, never duplicated" as a universal statement. -/
theorem C6_counterexample :
    build_merged_feeds ds6 fus6 =
      [{ name := "abc", source := "abc", primary_url := "u1", fallback_url := some "u3" },
       { name := "bcd", source := "bcd", primary_url := "u2", fallback_url := some "u3" }] ∧
    ((build_merged_feeds ds6 fus6).countP fun m => m.fallback_url == some "u3") = 2 ∧
    (∀ m ∈ build_merged_feeds ds6 fus6, m.primary_url ≠ "u4" ∧ m.fallback_url ≠ some "u4") := by
  decide

/-- **C6 (amended)**: the output is the primary-derived entries followed
by the standalone entries; every standalone entry stems from a secondary
entry that was *not* consumed as a fallback (never both), reproduces
exactly that entry's name and url with no fallback, and each secondary
index yields at most one standalone entry (strictly increasing indices);
a secondary may supply its URL as the fallback of more than one primary,
or be dropped when it matches an already-merged entry.  The Google
example merges to exactly one entry with `fallback_url = urlB`. -/
theorem C6_secondary_contribution (ds : List DFeed) (fus : List UFeed) :
    (build_merged_feeds ds fus
      = step1 ds fus ++ (standalonePairs ds fus).map Prod.snd) ∧
    (∀ p ∈ standalonePairs ds fus, p.1 ∉ usedIndices ds fus ∧
      ∃ fu, fus[p.1]? = some fu ∧
        p.2 = { name := fu.name, source := fu.name, primary_url := fu.url,
                fallback_url := none }) ∧
    ((standalonePairs ds fus).map Prod.fst).Pairwise (· < ·) ∧
    build_merged_feeds googleP googleS =
      [{ name := "Google AI Blog", source := "Google AI Blog",
         primary_url := "urlA", fallback_url := some "urlB" }] := by
  refine ⟨rfl, ?_, ?_, by decide⟩
  · intro p hp
    obtain ⟨h1, h2, fu, hfu, hshape⟩ :=
      (step2Aux_indices (usedIndices ds fus) fus 0 (step1 ds fus)).1 p hp
    refine ⟨h2, fu, ?_, hshape⟩
    simpa using hfu
  · exact (step2Aux_indices (usedIndices ds fus) fus 0 (step1 ds fus)).2

/-! ## Topic assignment (`assign_topics.py`, C10)

The classifier is an external call; its outcome is an oracle value:
`Except.error ()` models a raised exception, `Except.ok none` models a
`None` `response.text` (turned into `""` by `(response.text or "")`),
`Except.ok (some s)` a text response. -/

/-- `assign_topic_for_article` (assign_topics.py lines 44–57): strip the
response, return the first `TOPICS` label whose lower-case form occurs in
the lower-cased text (or equals it verbatim), else "Industry"; any
exception also yields "Industry". -/
def assign_topic_for_article (resp : Except Unit (Option String)) : String :=
  match resp with
  | Except.error _ => "Industry"
  | Except.ok otext =>
      let text := pyStrip (otext.getD "")
      match TOPICS.find? (fun t =>
          subIn (pyLower t).data (pyLower text).data || text == t) with
      | some t => t
      | none => "Industry"

/-- `get_articles_without_topic` (database.py): articles with NULL topic,
truncated only when `limit` is truthy (Python `if limit:` — a limit of
`0` does not truncate). -/
def get_articles_without_topic (arts : List Article) (limit : Option Nat) : List Article :=
  let data := arts.filter fun a => decide (a.topic = none)
  match limit with
  | none => data
  | some n => if n = 0 then data else data.take n

/-- `update_article_topic` (database.py): set `topic` on the rows with
the given id. -/
def update_article_topic (arts : List Article) (article_id : Nat) (topic : String) :
    List Article :=
  arts.map fun a => if a.id = article_id then { a with topic := some topic } else a

/-- The store effect of `assign_all` (assign_topics.py, `dry_run=False`):
for each article without a topic (in order), write the classifier-derived
topic; the oracle gives the classifier outcome of the i-th call. -/
def assign_all_db (arts : List Article) (oracle : Nat → Except Unit (Option String))
    (limit : Option Nat) : List Article :=
  ((get_articles_without_topic arts limit).enum).foldl
    (fun acc ia => update_article_topic acc ia.2.id (assign_topic_for_article (oracle ia.1)))
    arts

theorem assign_topic_mem (resp : Except Unit (Option String)) :
    assign_topic_for_article resp ∈ TOPICS := by
  match resp with
  | Except.error _ => simp [assign_topic_for_article, TOPICS]
  | Except.ok otext =>
      rw [assign_topic_for_article]
      cases hf : TOPICS.find? (fun t =>
          subIn (pyLower t).data (pyLower (pyStrip (otext.getD ""))).data ||
            pyStrip (otext.getD "") == t) with
      | some t =>
          simp only [hf]
          exact List.mem_of_find?_eq_some hf
      | none =>
          simp only [hf]
          simp [TOPICS]

theorem find?_first {α : Type} (p : α → Bool) : ∀ (pre : List α) (t : α) (post : List α),
    (∀ x ∈ pre, p x = false) → p t = true →
    List.find? p (pre ++ t :: post) = some t := by
  intro pre
  induction pre with
  | nil =>
      intro t post _ ht
      simp [List.find?_cons, ht]
  | cons a pre ih =>
      intro t post hpre ht
      rw [List.cons_append, List.find?_cons]
      rw [hpre a (List.mem_cons_self _ _)]
      exact ih t post (fun x hx => hpre x (List.mem_cons_of_mem _ hx)) ht

/-- **C10**: `assign_topic_for_article` is total and always returns one
of the five fixed labels: on an exception, and whenever no label's
lower-case form occurs in the lower-cased stripped response (and the
response does not equal a label verbatim), it returns "Industry"; the
first label in `TOPICS` order that matches wins; and every topic
`assign_all` ever writes to an article is a member of the fixed set. -/
theorem C10_assign_topic_total (resp : Except Unit (Option String)) :
    assign_topic_for_article resp ∈ TOPICS ∧
    assign_topic_for_article (Except.error ()) = "Industry" ∧
    (∀ otext : Option String,
      (∀ t ∈ TOPICS,
        subIn (pyLower t).data (pyLower (pyStrip (otext.getD ""))).data = false ∧
        ¬ (pyStrip (otext.getD "") = t)) →
      assign_topic_for_article (Except.ok otext) = "Industry") ∧
    (∀ (otext : Option String) (pre : List String) (t : String) (post : List String),
      TOPICS = pre ++ t :: post →
      (∀ t' ∈ pre,
        subIn (pyLower t').data (pyLower (pyStrip (otext.getD ""))).data = false ∧
        ¬ (pyStrip (otext.getD "") = t')) →
      (subIn (pyLower t).data (pyLower (pyStrip (otext.getD ""))).data = true ∨
        pyStrip (otext.getD "") = t) →
      assign_topic_for_article (Except.ok otext) = t) ∧
    (∀ (arts : List Article) (oracle : Nat → Except Unit (Option String))
       (limit : Option Nat), ∀ a ∈ assign_all_db arts oracle limit,
      a.topic ∈ arts.map Article.topic ∨ ∃ t ∈ TOPICS, a.topic = some t) := by
  refine ⟨assign_topic_mem resp, rfl, ?_, ?_, ?_⟩
  · intro otext hno
    rw [assign_topic_for_article]
    have hf : TOPICS.find? (fun t =>
        subIn (pyLower t).data (pyLower (pyStrip (otext.getD ""))).data ||
          pyStrip (otext.getD "") == t) = none := by
      rw [List.find?_eq_none]
      intro t ht
      obtain ⟨h1, h2⟩ := hno t ht
      simp [h1, h2]
    simp only [hf]
  · intro otext pre t post htopics hpre hmatch
    rw [assign_topic_for_article]
    have hf : TOPICS.find? (fun t' =>
        subIn (pyLower t').data (pyLower (pyStrip (otext.getD ""))).data ||
          pyStrip (otext.getD "") == t') = some t := by
      rw [htopics]
      apply find?_first
      · intro x hx
        obtain ⟨h1, h2⟩ := hpre x hx
        simp [h1, h2]
      · rcases hmatch with h | h
        · simp [h]
        · simp [h]
    simp only [hf]
  · intro arts oracle limit
    have hstep : ∀ (l : List (Nat × Article)) (acc : List Article),
        (∀ a ∈ acc, a.topic ∈ arts.map Article.topic ∨ ∃ t ∈ TOPICS, a.topic = some t) →
        ∀ a ∈ l.foldl (fun acc ia =>
            update_article_topic acc ia.2.id (assign_topic_for_article (oracle ia.1))) acc,
          a.topic ∈ arts.map Article.topic ∨ ∃ t ∈ TOPICS, a.topic = some t := by
      intro l
      induction l with
      | nil => intro acc hacc; exact hacc
      | cons ia l ih =>
          intro acc hacc
          rw [List.foldl_cons]
          apply ih
          intro a ha
          rw [update_article_topic] at ha
          obtain ⟨a0, ha0, rfl⟩ := List.mem_map.mp ha
          split
          · exact Or.inr ⟨_, assign_topic_mem (oracle ia.1), rfl⟩
          · exact hacc a0 ha0
    intro a ha
    exact hstep _ arts (fun a0 ha0 => Or.inl (List.mem_map.mpr ⟨a0, ha0, rfl⟩)) a ha

/-! ## The digest cycle (`send_daily_email.py` / `summarize_articles.py`, C2)

The store is a `DB` record; external effects are oracles: `summ i` /
`img i` give the summarizer's outcome for the `i`-th selected article,
`sendOk i` the SendGrid outcome of the `i`-th send, `sentTime` /
`logTime` the `utcnow().isoformat()` values taken by
`mark_articles_sent` and `insert_digest_log`.  The in-memory mutation of
the selected dicts by `summarize_selected` is irrelevant to C2 (the later
steps only read `id` and `source`, which it never touches), so only its
store writes are modelled. -/

structure Subscriber where
  email : String
  confirm_token : String := ""
  deriving DecidableEq, Repr

structure DB where
  articles : List Article
  digests : List DigestEntry
  subscribers : List Subscriber
  deriving DecidableEq, Repr

structure SendStats where
  articles : Nat
  sent : Nat
  failed : Nat
  deriving DecidableEq, Repr

structure Oracles where
  summ : Nat → String × String
  img : Nat → Option String
  sendOk : Nat → Bool
  sentTime : String
  logTime : String

/-- Python truthiness of `article.get("summary")`. -/
def truthy_summary (a : Article) : Bool :=
  match a.summary with
  | none => false
  | some s => !(s == "")

/-- Python truthiness of an optional string (`if test_email:` — both
`None` and `""` are falsy). -/
def truthyStrOpt : Option String → Bool
  | none => false
  | some s => !(s == "")

/-- `update_article_analysis` (summarize_articles.py): set summary and
opinion on the rows with the given id. -/
def update_article_analysis (arts : List Article) (article_id : Nat)
    (summary opinion : String) : List Article :=
  arts.map fun a =>
    if a.id = article_id then { a with summary := some summary, opinion := some opinion }
    else a

/-- `update_article_image` (database.py): set image_url on the rows with
the given id. -/
def update_article_image (arts : List Article) (article_id : Nat) (image_url : String) :
    List Article :=
  arts.map fun a => if a.id = article_id then { a with image_url := some image_url } else a

/-- The store effect of `summarize_selected` (summarize_articles.py lines
182–213): for each selected article with a falsy summary, if not a dry
run and the summarizer returns a nonempty summary, write summary/opinion
and possibly the extracted image. -/
def summarize_selected_db (arts : List Article) (sel : List Article) (dryRun : Bool)
    (summ : Nat → String × String) (img : Nat → Option String) : List Article :=
  if dryRun then arts
  else
    (sel.enum).foldl
      (fun acc ia =>
        if truthy_summary ia.2 then acc
        else if (summ ia.1).1 == "" then acc
        else
          let acc1 := update_article_analysis acc ia.2.id (summ ia.1).1 (summ ia.1).2
          match img ia.1 with
          | none => acc1
          | some u => update_article_image acc1 ia.2.id u)
      arts

/-- `mark_articles_sent` (database.py lines 217–223): one update per id,
all with the same timestamp — net effect: set `sent_at` on every row
whose id is in the list. -/
def mark_articles_sent (arts : List Article) (ids : List Nat) (sent_time : String) :
    List Article :=
  arts.map fun a => if ids.contains a.id then { a with sent_at := some sent_time } else a

/-- The pool selection of `send_daily_digest`: topic-filtered (summary
optional) under a chosen topic, otherwise all summarized unsent articles;
always interleaved. -/
def selected_articles (db : DB) (since : String) (maxPerSource : Nat) : List Article :=
  match choose_topic_for_today db.articles db.digests since with
  | some t => digest_select (get_unsent_articles db.articles (some t) false) maxPerSource true
  | none => digest_select (get_unsent_articles db.articles none true) maxPerSource true

/-- The just-in-time summarization step of `send_daily_digest`: only in
the topic branch, only when articles were selected and some lack a
summary. -/
def jitDB (db : DB) (chosen : Option String) (articles : List Article) (dryRun : Bool)
    (ox : Oracles) : DB :=
  match chosen with
  | some _ =>
      if articles.isEmpty then db
      else if (articles.filter fun a => !truthy_summary a).isEmpty then db
      else { db with articles := summarize_selected_db db.articles articles dryRun ox.summ ox.img }
  | none => db

/-- The subscriber send loop: dry runs count every recipient as sent;
otherwise the oracle decides each send. -/
def countSends (n : Nat) (dryRun : Bool) (sendOk : Nat → Bool) : Nat × Nat :=
  (List.range n).foldl
    (fun sf i =>
      if dryRun then (sf.1 + 1, sf.2)
      else if sendOk i then (sf.1 + 1, sf.2) else (sf.1, sf.2 + 1))
    (0, 0)

/-- The digest-log rows appended by a committed cycle: one entry iff a
topic was chosen. -/
def logAppend (chosen : Option String) (logTime : String) : List DigestEntry :=
  match chosen with
  | some t => [{ topic := t, sent_at := logTime }]
  | none => []

/-- `send_daily_digest` (send_daily_email.py lines 211–311), modelled on
the store: choose a topic, select, JIT-summarize, simulate the send loop,
and commit (mark-sent + digest log) only when not a dry run, no test
recipient, and at least one send succeeded. -/
def send_daily_digest (db : DB) (dryRun : Bool) (testEmail : Option String)
    (since : String) (maxPerSource : Nat) (ox : Oracles) : DB × SendStats :=
  let chosen := choose_topic_for_today db.articles db.digests since
  let articles := selected_articles db since maxPerSource
  let db1 := jitDB db chosen articles dryRun ox
  if articles.isEmpty then (db1, ⟨0, 0, 0⟩)
  else
    let subs : List Subscriber :=
      match testEmail with
      | some e =>
          if e == "" then db.subscribers
          else [{ email := e, confirm_token := "test-token" }]
      | none => db.subscribers
    if !(truthyStrOpt testEmail) && subs.isEmpty then (db1, ⟨articles.length, 0, 0⟩)
    else
      let sf := countSends subs.length dryRun ox.sendOk
      if !dryRun && !(truthyStrOpt testEmail) && decide (0 < sf.1) then
        ({ articles := mark_articles_sent db1.articles (articles.map Article.id) ox.sentTime,
           digests := db1.digests ++ logAppend chosen ox.logTime,
           subscribers := db1.subscribers }, ⟨articles.length, sf.1, sf.2⟩)
      else (db1, ⟨articles.length, sf.1, sf.2⟩)

/-- The `(id, sent_at)` projection of the articles table. -/
def projIdSent (arts : List Article) : List (Nat × Option String) :=
  arts.map fun a => (a.id, a.sent_at)

theorem projIdSent_update_analysis (arts : List Article) (article_id : Nat)
    (summary opinion : String) :
    projIdSent (update_article_analysis arts article_id summary opinion) = projIdSent arts := by
  rw [projIdSent, update_article_analysis, List.map_map, projIdSent]
  apply List.map_congr_left
  intro a _
  simp only [Function.comp_apply]
  split <;> rfl

theorem projIdSent_update_image (arts : List Article) (article_id : Nat) (u : String) :
    projIdSent (update_article_image arts article_id u) = projIdSent arts := by
  rw [projIdSent, update_article_image, List.map_map, projIdSent]
  apply List.map_congr_left
  intro a _
  simp only [Function.comp_apply]
  split <;> rfl

theorem projIdSent_summarize (arts sel : List Article) (dryRun : Bool)
    (summ : Nat → String × String) (img : Nat → Option String) :
    projIdSent (summarize_selected_db arts sel dryRun summ img) = projIdSent arts := by
  rw [summarize_selected_db]
  split
  · rfl
  · have hstep : ∀ (l : List (Nat × Article)) (acc : List Article),
        projIdSent (l.foldl (fun acc ia =>
          if truthy_summary ia.2 then acc
          else if (summ ia.1).1 == "" then acc
          else
            let acc1 := update_article_analysis acc ia.2.id (summ ia.1).1 (summ ia.1).2
            match img ia.1 with
            | none => acc1
            | some u => update_article_image acc1 ia.2.id u) acc) = projIdSent acc := by
      intro l
      induction l with
      | nil => intro acc; rfl
      | cons ia l ih =>
          intro acc
          rw [List.foldl_cons, ih]
          split
          · rfl
          · split
            · rfl
            · split
              · exact projIdSent_update_analysis _ _ _ _
              · rw [projIdSent_update_image, projIdSent_update_analysis]
    exact hstep _ arts

theorem jitDB_articles_proj (db : DB) (chosen : Option String) (articles : List Article)
    (dryRun : Bool) (ox : Oracles) :
    projIdSent (jitDB db chosen articles dryRun ox).articles = projIdSent db.articles := by
  rw [jitDB.eq_def]
  cases chosen with
  | none => rfl
  | some t =>
      split
      · split
        · rfl
        · split
          · rfl
          · exact projIdSent_summarize _ _ _ _ _
      · rfl

theorem jitDB_digests (db : DB) (chosen : Option String) (articles : List Article)
    (dryRun : Bool) (ox : Oracles) :
    (jitDB db chosen articles dryRun ox).digests = db.digests := by
  rw [jitDB.eq_def]
  cases chosen with
  | none => rfl
  | some t =>
      split
      · split
        · rfl
        · split <;> rfl
      · rfl

theorem projIdSent_mark_of_proj_eq (arts1 arts2 : List Article) (ids : List Nat) (T : String)
    (h : projIdSent arts1 = projIdSent arts2) :
    projIdSent (mark_articles_sent arts1 ids T)
      = arts2.map fun a => (a.id, if ids.contains a.id then some T else a.sent_at) := by
  have h1 : projIdSent (mark_articles_sent arts1 ids T)
      = (projIdSent arts1).map fun p => (p.1, if ids.contains p.1 then some T else p.2) := by
    rw [projIdSent, mark_articles_sent, List.map_map, projIdSent, List.map_map]
    apply List.map_congr_left
    intro a _
    simp only [Function.comp_apply]
    split <;> simp
  rw [h1, h, projIdSent, List.map_map]
  apply List.map_congr_left
  intro a _
  rfl

/-- **C2**: `sent_at` is written and a DigestLogEntry appended only when
the run is not a dry run, no test recipient is set, and at least one send
succeeded; in that case every selected article's row gets the (non-null)
mark timestamp, the other rows keep their `sent_at`, and exactly one
DigestLogEntry is appended iff a topic was chosen.  In dry-run or
test-recipient mode no `sent_at` changes and no DigestLogEntry is
appended, regardless of the (simulated) send outcomes. -/
theorem C2_commit_discipline (db : DB) (dryRun : Bool) (testEmail : Option String)
    (since : String) (mps : Nat) (ox : Oracles) :
    ((dryRun = true ∨ truthyStrOpt testEmail = true) →
      projIdSent (send_daily_digest db dryRun testEmail since mps ox).1.articles
        = projIdSent db.articles ∧
      (send_daily_digest db dryRun testEmail since mps ox).1.digests = db.digests) ∧
    ((dryRun = false ∧ truthyStrOpt testEmail = false ∧
        (send_daily_digest db dryRun testEmail since mps ox).2.sent = 0) →
      projIdSent (send_daily_digest db dryRun testEmail since mps ox).1.articles
        = projIdSent db.articles ∧
      (send_daily_digest db dryRun testEmail since mps ox).1.digests = db.digests) ∧
    ((dryRun = false ∧ truthyStrOpt testEmail = false ∧
        0 < (send_daily_digest db dryRun testEmail since mps ox).2.sent) →
      projIdSent (send_daily_digest db dryRun testEmail since mps ox).1.articles
        = db.articles.map (fun a => (a.id,
            if ((selected_articles db since mps).map Article.id).contains a.id
            then some ox.sentTime else a.sent_at)) ∧
      (send_daily_digest db dryRun testEmail since mps ox).1.digests
        = db.digests ++
            logAppend (choose_topic_for_today db.articles db.digests since) ox.logTime) := by
  have hproj := jitDB_articles_proj db (choose_topic_for_today db.articles db.digests since)
    (selected_articles db since mps) dryRun ox
  have hdig := jitDB_digests db (choose_topic_for_today db.articles db.digests since)
    (selected_articles db since mps) dryRun ox
  simp only [send_daily_digest]
  split
  · -- no articles selected: nothing happens
    refine ⟨fun _ => ⟨hproj, hdig⟩, fun _ => ⟨hproj, hdig⟩, ?_⟩
    rintro ⟨-, -, h3⟩
    simp at h3
  · split
    · -- no active subscribers: nothing happens
      refine ⟨fun _ => ⟨hproj, hdig⟩, fun _ => ⟨hproj, hdig⟩, ?_⟩
      rintro ⟨-, -, h3⟩
      simp at h3
    · split
      · -- commit
        rename_i hcommit
        rw [Bool.and_eq_true, Bool.and_eq_true] at hcommit
        obtain ⟨⟨hdr, hte⟩, hsf⟩ := hcommit
        rw [Bool.not_eq_true'] at hdr
        rw [Bool.not_eq_true'] at hte
        rw [decide_eq_true_iff] at hsf
        refine ⟨?_, ?_, ?_⟩
        · rintro (h | h)
          · rw [h] at hdr; cases hdr
          · rw [h] at hte; cases hte
        · rintro ⟨-, -, h3⟩
          simp only [] at h3
          omega
        · rintro ⟨-, -, -⟩
          constructor
          · exact projIdSent_mark_of_proj_eq _ _ _ _ hproj
          · rw [hdig]
      · -- no commit: state unchanged
        rename_i hncommit
        refine ⟨fun _ => ⟨hproj, hdig⟩, fun _ => ⟨hproj, hdig⟩, ?_⟩
        rintro ⟨h1, h2, h3⟩
        exfalso
        apply hncommit
        rw [Bool.and_eq_true, Bool.and_eq_true]
        refine ⟨⟨?_, ?_⟩, ?_⟩
        · rw [Bool.not_eq_true', h1]
        · rw [Bool.not_eq_true', h2]
        · rw [decide_eq_true_iff]
          simpa using h3

/-- A one-article, one-subscriber store for exercising the cycle. -/
def dbEx : DB :=
  { articles := [{ id := 1, source := some "A", summary := some "s",
                   fetched_at := some "2026-10-12T00:00:00" }],
    digests := [],
    subscribers := [{ email := "a@example.com", confirm_token := "tok" }] }

def oxEx : Oracles :=
  { summ := fun _ => ("", ""), img := fun _ => none, sendOk := fun _ => true,
    sentTime := "2026-10-12T07:00:00", logTime := "2026-10-12T07:00:01" }

/-- Witness for C2: a dry run leaves every `sent_at` and the digest log
unchanged. -/
theorem C2_commit_discipline_witness :
    projIdSent (send_daily_digest dbEx true none "" 2 oxEx).1.articles
      = projIdSent dbEx.articles ∧
    (send_daily_digest dbEx true none "" 2 oxEx).1.digests = dbEx.digests :=
  (C2_commit_discipline dbEx true none "" 2 oxEx).1 (Or.inl rfl)
